import Mathlib

/-!
Verification of the rlp-rs RLP codec and its Ethereum typed model.

The definitions below are a shallow embedding of the Rust sources:
  * `src/rlp/src/lib.rs`  — the L1 framer (`unpack_rlp` / `pack_rlp`),
  * `src/rlp/src/ser.rs`  — the serde serializer bridge,
  * `src/rlp/src/de.rs`   — the serde deserializer bridge,
  * `src/types/src/transaction.rs` and `src/types/src/block.rs` — the
    Ethereum transaction envelope and block header model.

Machine bytes are modelled as `Nat` (values `< 256` where it matters),
`usize` as `Nat` with explicit `% 2^64` at the points where the Rust code
casts, and fallible Rust functions return `Except RlpError`.  The decoder
recursion is bounded by an explicit fuel argument so that it is structural;
`unpackAux_irrel` shows the fuel does not matter once it exceeds the number
of bytes left, which is exactly the variant of the Rust recursion.
-/

set_option maxHeartbeats 1000000
set_option maxRecDepth 8000

/-- The closed error set of the codec (`RlpError` in `src/rlp/src/lib.rs`). -/
inductive RlpError where
  | MissingBytes
  | TrailingBytes
  | ExpectedBytes
  | ExpectedList
  | InvalidBytes
  | InvalidLength
  | Message (msg : String)
deriving DecidableEq, Repr

/-- The RLP tree (`RecursiveBytes` in `src/rlp/src/lib.rs`): byte strings,
the distinguished empty-list marker, and nested lists. -/
inductive RecursiveBytes where
  | Bytes (bytes : List Nat)
  | EmptyList
  | Nested (recs : List RecursiveBytes)
deriving Repr

mutual

/-- Boolean equality on trees (the derived `PartialEq`). -/
def RecursiveBytes.beq : RecursiveBytes → RecursiveBytes → Bool
  | .Bytes a, .Bytes b => a == b
  | .EmptyList, .EmptyList => true
  | .Nested a, .Nested b => RecursiveBytes.beqList a b
  | _, _ => false

/-- Boolean equality on lists of trees. -/
def RecursiveBytes.beqList : List RecursiveBytes → List RecursiveBytes → Bool
  | [], [] => true
  | a :: as, b :: bs => RecursiveBytes.beq a b && RecursiveBytes.beqList as bs
  | _, _ => false

end

theorem RecursiveBytes.beq_eq :
    ∀ n : Nat,
      (∀ a b : RecursiveBytes, sizeOf a ≤ n → (RecursiveBytes.beq a b = true ↔ a = b)) ∧
      (∀ as bs : List RecursiveBytes, sizeOf as ≤ n →
        (RecursiveBytes.beqList as bs = true ↔ as = bs)) := by
  intro n
  induction n using Nat.strong_induction_on with
  | _ n ih =>
    constructor
    · intro a b hsz
      cases a with
      | Bytes xs => cases b <;> simp [RecursiveBytes.beq]
      | EmptyList => cases b <;> simp [RecursiveBytes.beq]
      | Nested as =>
        cases b with
        | Bytes ys => simp [RecursiveBytes.beq]
        | EmptyList => simp [RecursiveBytes.beq]
        | Nested bs =>
          simp only [RecursiveBytes.beq, RecursiveBytes.Nested.injEq]
          have hlt : sizeOf as < n := by
            have hs : sizeOf (RecursiveBytes.Nested as) = 1 + sizeOf as := by simp
            omega
          exact (ih _ hlt).2 as bs le_rfl
    · intro as bs hsz
      cases as with
      | nil => cases bs <;> simp [RecursiveBytes.beqList]
      | cons a as =>
        cases bs with
        | nil => simp [RecursiveBytes.beqList]
        | cons b bs =>
          simp only [RecursiveBytes.beqList, Bool.and_eq_true, List.cons.injEq]
          have h1 : sizeOf a < n := by
            have hs : sizeOf (a :: as) = 1 + sizeOf a + sizeOf as := by simp
            omega
          have h2 : sizeOf as < n := by
            have hs : sizeOf (a :: as) = 1 + sizeOf a + sizeOf as := by simp
            omega
          rw [(ih _ h1).1 a b le_rfl, (ih _ h2).2 as bs le_rfl]

instance : DecidableEq RecursiveBytes := fun a b =>
  decidable_of_iff _ ((RecursiveBytes.beq_eq (sizeOf a)).1 a b le_rfl)

instance {ε α : Type} [DecidableEq ε] [DecidableEq α] : DecidableEq (Except ε α) := fun
  | .ok a, .ok b => decidable_of_iff (a = b) (by simp)
  | .ok _, .error _ => isFalse (by simp)
  | .error _, .ok _ => isFalse (by simp)
  | .error e, .error f => decidable_of_iff (e = f) (by simp)

/-- A decoded document: the `Rlp` wrapper is a deque of top-level values. -/
abbrev Rlp := List RecursiveBytes

/-- `usize::MAX` on the 64-bit targets the crate is built for. -/
def usizeMax : Nat := 2 ^ 64 - 1

/-- Rust slice indexing `bytes.get(lo..hi)`: `some` of the subslice when the
range is in bounds (including `lo ≤ hi`), `none` otherwise. -/
def sliceGet (bytes : List Nat) (lo hi : Nat) : Option (List Nat) :=
  if lo ≤ hi ∧ hi ≤ bytes.length then some ((bytes.drop lo).take (hi - lo)) else none

/-- Big-endian value of a byte string; `usize::from_be_bytes` applied to the
zero-extended 8-byte buffer built by the decoder equals this fold. -/
def fromBeBytes (l : List Nat) : Nat := l.foldl (fun acc b => acc * 256 + b) 0

/-- The `w` big-endian base-256 digits of `n % 256^w` (`to_be_bytes`). -/
def beDigits : Nat → Nat → List Nat
  | 0, _ => []
  | w + 1, n => beDigits w (n / 256) ++ [n % 256]

theorem sliceGet_eq_some {bytes s : List Nat} {lo hi : Nat}
    (h : sliceGet bytes lo hi = some s) :
    lo ≤ hi ∧ hi ≤ bytes.length ∧ s.length = hi - lo := by
  unfold sliceGet at h
  split at h
  · rename_i hc
    cases h
    refine ⟨hc.1, hc.2, ?_⟩
    simp [List.length_take, List.length_drop]
    omega
  · cases h

theorem getElemQ_lt {l : List Nat} {i a : Nat} (h : l[i]? = some a) :
    i < l.length := by
  by_contra hc
  push_neg at hc
  rw [List.getElem?_eq_none hc] at h
  cases h

/-- One decoding step of `recursive_unpack_rlp` from `src/rlp/src/lib.rs`:
classify the discriminator byte at `cursor`, slice the payload, and delegate
every recursive call of the Rust function to `next`. -/
def unpackStep (next : List Nat → Nat → Except RlpError (List RecursiveBytes))
    (bytes : List Nat) (cursor : Nat) : Except RlpError (List RecursiveBytes) :=
  match bytes[cursor]? with
  | none => .ok []
  | some disc =>
    if disc ≤ 0x7f then
      -- single byte below 0x80 stands for itself
      (next bytes (cursor + 1)).map
        (fun rest => RecursiveBytes.Bytes [disc] :: rest)
    else if disc ≤ 0xb7 then
      -- short byte string, length 0..=55 in the discriminator
      let len := disc - 0x80
      match sliceGet bytes (cursor + 1) (cursor + 1 + len) with
      | none => .error .MissingBytes
      | some ret =>
        if len == 1 && ret.headD 0 ≤ 127 then .error .InvalidBytes
        else
          (next bytes (cursor + 1 + len)).map
            (fun rest => RecursiveBytes.Bytes ret :: rest)
    else if disc ≤ 0xbf then
      -- long byte string: disc - 0xb7 length bytes, then the payload
      let len_bytes_len := disc - 0xb7
      if len_bytes_len > 8 then .error .InvalidLength
      else
        match sliceGet bytes (cursor + 1) (cursor + 1 + len_bytes_len) with
        | none => .error .MissingBytes
        | some len_bytes =>
          let len := fromBeBytes len_bytes
          if len ≤ 55 then .error .InvalidLength
          else if cursor + 1 + len_bytes_len + len > usizeMax then .error .InvalidLength
          else
            match sliceGet bytes (cursor + 1 + len_bytes_len)
                (cursor + 1 + len_bytes_len + len) with
            | none => .error .MissingBytes
            | some ret =>
              (next bytes (cursor + 1 + len_bytes_len + len)).map
                (fun rest => RecursiveBytes.Bytes ret :: rest)
    else if disc ≤ 0xf7 then
      -- short list
      let len := disc - 0xc0
      match sliceGet bytes (cursor + 1) (cursor + 1 + len) with
      | none => .error .MissingBytes
      | some list_bytes =>
        match next list_bytes 0 with
        | .error e => .error e
        | .ok inner =>
          (next bytes (cursor + 1 + len)).map
            (fun rest => RecursiveBytes.Nested inner :: rest)
    else
      -- long list
      let len_bytes_len := disc - 0xf7
      match sliceGet bytes (cursor + 1) (cursor + 1 + len_bytes_len) with
      | none => .error .MissingBytes
      | some len_bytes =>
        if len_bytes.headD 1 == 0 then .error .TrailingBytes
        else
          let len := fromBeBytes len_bytes
          if len < 55 then .error .InvalidLength
          else if cursor + 1 + len_bytes_len + len > usizeMax then .error .InvalidLength
          else
            match sliceGet bytes (cursor + 1 + len_bytes_len)
                (cursor + 1 + len_bytes_len + len) with
            | none => .error .MissingBytes
            | some list_bytes =>
              match next list_bytes 0 with
              | .error e => .error e
              | .ok inner =>
                (next bytes (cursor + 1 + len_bytes_len + len)).map
                  (fun rest => RecursiveBytes.Nested inner :: rest)

/-- `recursive_unpack_rlp` with explicit fuel; every recursive call of the
Rust function strictly shrinks the bytes after the cursor, so the fuel in
`recursive_unpack_rlp` below always suffices. -/
def unpackAux : Nat → List Nat → Nat → Except RlpError (List RecursiveBytes)
  | 0, _, _ => .error (.Message "out of fuel")
  | fuel + 1, bytes, cursor => unpackStep (unpackAux fuel) bytes cursor

theorem unpackAux_succ (fuel : Nat) (bytes : List Nat) (cursor : Nat) :
    unpackAux (fuel + 1) bytes cursor = unpackStep (unpackAux fuel) bytes cursor := rfl

/-- `recursive_unpack_rlp` proper: the fuel `bytes.length + 1 - cursor` always
suffices, since every recursive call strictly shrinks the bytes left. -/
def recursive_unpack_rlp (bytes : List Nat) (cursor : Nat) :
    Except RlpError (List RecursiveBytes) :=
  unpackAux (bytes.length + 1) bytes cursor

/-- `unpack_rlp`: decode a whole byte slice into a document. -/
def unpack_rlp (bytes : List Nat) : Except RlpError Rlp :=
  recursive_unpack_rlp bytes 0

/-- `parse_num`: strip leading zero bytes, `none` when every byte is zero. -/
def parse_num (bytes : List Nat) : Option (List Nat) :=
  match bytes.dropWhile (· == 0) with
  | [] => none
  | l => some l

/-- `append_rlp_bytes`: encode one byte string and append it to `pack`,
returning the number of bytes written. -/
def append_rlp_bytes (pack new_bytes : List Nat) : Except RlpError (Nat × List Nat) :=
  let enc : Except RlpError (List Nat) :=
    if new_bytes.length == 1 && new_bytes.headD 0 ≤ 127 then .ok new_bytes
    else
      let len := new_bytes.length
      if len ≤ 55 then
        if len == 1 && new_bytes.headD 0 ≤ 127 then .error .InvalidBytes
        else .ok ((0x80 + len) :: new_bytes)
      else if len % (usizeMax + 1) ≤ usizeMax then
        -- `len as u64 <= u64::MAX`, with `(len as u64).to_be_bytes()` below
        let len_bytes := (parse_num (beDigits 8 len)).getD []
        .ok (((0xb7 + len_bytes.length) :: len_bytes) ++ new_bytes)
      else .error .InvalidLength
  match enc with
  | .ok bytes => .ok (bytes.length, pack ++ bytes)
  | .error e => .error e

/-- `serialize_list_len`: the list header for an encoded payload length. -/
def serialize_list_len (len : Nat) : Except RlpError (List Nat) :=
  if len ≤ 55 then .ok [0xc0 + len]
  else
    let len_bytes := (parse_num (beDigits 8 len)).getD []
    .ok ((0xf7 + len_bytes.length) :: len_bytes)

mutual

/-- `recursive_pack_rlp`: encode one tree value, appending to `pack`. -/
def recursive_pack_rlp : RecursiveBytes → List Nat → Except RlpError (Nat × List Nat)
  | .Bytes bytes, pack => append_rlp_bytes pack bytes
  | .EmptyList, pack => .ok (1, pack ++ [0x80])
  | .Nested recs, pack => do
      let (len, inner_pack) ← pack_fold recs 0 []
      let len_bytes ← serialize_list_len len
      .ok (len + len_bytes.length, pack ++ len_bytes ++ inner_pack)

/-- The `for rec in recs` loop inside the `Nested` arm of `recursive_pack_rlp`. -/
def pack_fold : List RecursiveBytes → Nat → List Nat → Except RlpError (Nat × List Nat)
  | [], len, inner_pack => .ok (len, inner_pack)
  | rec :: rest, len, inner_pack => do
      let (l, inner_pack2) ← recursive_pack_rlp rec inner_pack
      pack_fold rest (len + l) inner_pack2

end

/-- The `while let Some(rec) = rlp.pop_front()` loop of `pack_rlp`. -/
def pack_rlp_loop : List RecursiveBytes → List Nat → Except RlpError (List Nat)
  | [], pack => .ok pack
  | rec :: rest, pack => do
      let (_, pack2) ← recursive_pack_rlp rec pack
      pack_rlp_loop rest pack2

/-- `pack_rlp`: encode a document back to bytes. -/
def pack_rlp (rlp : Rlp) : Except RlpError (List Nat) :=
  pack_rlp_loop rlp []

/-- The bytes `append_rlp_bytes` emits for one byte string (it never depends
on the accumulator, and the two error branches are unreachable). -/
def encBytesOf (new_bytes : List Nat) : List Nat :=
  if new_bytes.length == 1 && new_bytes.headD 0 ≤ 127 then new_bytes
  else if new_bytes.length ≤ 55 then (0x80 + new_bytes.length) :: new_bytes
  else
    let len_bytes := (parse_num (beDigits 8 new_bytes.length)).getD []
    ((0xb7 + len_bytes.length) :: len_bytes) ++ new_bytes

theorem append_rlp_bytes_eq (pack new_bytes : List Nat) :
    append_rlp_bytes pack new_bytes =
      .ok ((encBytesOf new_bytes).length, pack ++ encBytesOf new_bytes) := by
  unfold append_rlp_bytes encBytesOf
  have h3 : new_bytes.length % (usizeMax + 1) ≤ usizeMax := by
    have : new_bytes.length % (usizeMax + 1) < usizeMax + 1 := Nat.mod_lt _ (by positivity)
    omega
  by_cases hl : new_bytes.length = 1 <;>
    by_cases hh : new_bytes.head?.getD 0 ≤ 127 <;>
      by_cases h2 : new_bytes.length ≤ 55 <;>
        simp [hl, hh, h2, h3]

theorem serialize_list_len_ok (len : Nat) : ∃ out, serialize_list_len len = .ok out := by
  unfold serialize_list_len
  by_cases h : len ≤ 55 <;> simp [h]

/-- The byte string `recursive_pack_rlp` appends for one tree value. -/
def encOne (rec : RecursiveBytes) : List Nat :=
  match recursive_pack_rlp rec [] with
  | .ok (_, b) => b
  | .error _ => []

/-- The byte string `pack_rlp` emits for a document. -/
def encList (recs : List RecursiveBytes) : List Nat :=
  (recs.map encOne).flatten

theorem encList_cons (r : RecursiveBytes) (rest : List RecursiveBytes) :
    encList (r :: rest) = encOne r ++ encList rest := by
  simp [encList]

theorem pack_strong :
    ∀ n : Nat,
      (∀ (rec : RecursiveBytes) (pack : List Nat), sizeOf rec ≤ n →
        recursive_pack_rlp rec pack = .ok ((encOne rec).length, pack ++ encOne rec)) ∧
      (∀ (recs : List RecursiveBytes) (len : Nat) (inner : List Nat), sizeOf recs ≤ n →
        pack_fold recs len inner = .ok (len + (encList recs).length, inner ++ encList recs)) := by
  intro n
  induction n using Nat.strong_induction_on with
  | _ n ih =>
    constructor
    · intro rec pack hsz
      cases rec with
      | Bytes b =>
        rw [recursive_pack_rlp, append_rlp_bytes_eq]
        have : encOne (.Bytes b) = encBytesOf b := by
          unfold encOne
          rw [recursive_pack_rlp, append_rlp_bytes_eq]
          simp
        rw [this]
      | EmptyList =>
        have : encOne .EmptyList = [0x80] := by
          unfold encOne
          rw [recursive_pack_rlp]
          simp
        rw [recursive_pack_rlp, this]
        simp
      | Nested recs =>
        have hlt : sizeOf recs < n := by
          have hs : sizeOf (RecursiveBytes.Nested recs) = 1 + sizeOf recs := by simp
          omega
        have hfold : pack_fold recs 0 [] =
            .ok ((encList recs).length, encList recs) := by
          have := (ih _ hlt).2 recs 0 [] le_rfl
          simpa using this
        obtain ⟨hdr, hh⟩ := serialize_list_len_ok (encList recs).length
        have key : ∀ p : List Nat, recursive_pack_rlp (.Nested recs) p =
            .ok ((encList recs).length + hdr.length, p ++ (hdr ++ encList recs)) := by
          intro p
          rw [recursive_pack_rlp]
          rw [hfold]
          simp only [bind, Except.bind]
          rw [hh]
          simp
        have henc : encOne (.Nested recs) = hdr ++ encList recs := by
          unfold encOne
          rw [key []]
          simp
        rw [key pack, henc]
        simp [Nat.add_comm]
    · intro recs len inner hsz
      cases recs with
      | nil =>
        simp [pack_fold, encList]
      | cons r rest =>
        have h1 : sizeOf r < n := by
          have hs : sizeOf (r :: rest) = 1 + sizeOf r + sizeOf rest := by simp
          omega
        have h2 : sizeOf rest < n := by
          have hs : sizeOf (r :: rest) = 1 + sizeOf r + sizeOf rest := by simp
          omega
        rw [pack_fold]
        rw [(ih _ h1).1 r inner le_rfl]
        simp only [bind, Except.bind]
        rw [(ih _ h2).2 rest (len + (encOne r).length) (inner ++ encOne r) le_rfl]
        rw [encList_cons]
        simp [Nat.add_assoc]

theorem recursive_pack_rlp_eq (rec : RecursiveBytes) (pack : List Nat) :
    recursive_pack_rlp rec pack = .ok ((encOne rec).length, pack ++ encOne rec) :=
  (pack_strong (sizeOf rec)).1 rec pack le_rfl

theorem pack_rlp_loop_eq (recs : List RecursiveBytes) (pack : List Nat) :
    pack_rlp_loop recs pack = .ok (pack ++ encList recs) := by
  induction recs generalizing pack with
  | nil => simp [pack_rlp_loop, encList]
  | cons r rest ihr =>
    rw [pack_rlp_loop, recursive_pack_rlp_eq]
    simp only [bind, Except.bind]
    rw [ihr, encList_cons]
    simp

theorem pack_rlp_eq (rlp : Rlp) : pack_rlp rlp = .ok (encList rlp) := by
  rw [pack_rlp, pack_rlp_loop_eq]
  simp

example : unpack_rlp [0x83, 100, 111, 103] = .ok [.Bytes [100, 111, 103]] := by decide

example :
    unpack_rlp [0xc8, 0x83, 99, 97, 116, 0x83, 100, 111, 103] =
      .ok [.Nested [.Bytes [99, 97, 116], .Bytes [100, 111, 103]]] := by decide

example : unpack_rlp [0x80] = .ok [.Bytes []] := by decide
example : unpack_rlp [0xc0] = .ok [.Nested []] := by decide
example : unpack_rlp [0x00] = .ok [.Bytes [0]] := by decide
example : unpack_rlp [0x81, 0x05] = .error .InvalidBytes := by decide
example : pack_rlp [.Nested [.Bytes [99, 97, 116], .Bytes [100, 111, 103]]] =
    .ok [0xc8, 0x83, 99, 97, 116, 0x83, 100, 111, 103] := by decide
example : pack_rlp [.EmptyList] = .ok [0x80] := by decide

/-- C10: `pack_rlp` is infallible — packing any tree of `Bytes`, `EmptyList`
and `Nested` nodes returns `Ok`: the `InvalidLength` branch of
`append_rlp_bytes` sits under a `len as u64 <= u64::MAX` guard that always
holds, and `serialize_list_len` never errors. -/
theorem c10_pack_rlp_infallible : ∀ rlp : Rlp, ∃ out, pack_rlp rlp = .ok out :=
  fun rlp => ⟨encList rlp, pack_rlp_eq rlp⟩

/-- C1 (failing input): the canonical round-trip `unpack ∘ pack = id` fails on
the long byte string whose length field has a leading zero byte.  The bytes
`b9 00 38` followed by 56 payload bytes decode successfully (the byte-string
long form never checks its length bytes for a leading zero), yet re-packing
emits the minimal form `b8 38`, so `pack (unpack b) ≠ b`. -/
theorem c1_roundtrip_failing_input :
    unpack_rlp (0xb9 :: 0x00 :: 0x38 :: List.replicate 56 7) =
      .ok [.Bytes (List.replicate 56 7)] ∧
    pack_rlp [.Bytes (List.replicate 56 7)] =
      .ok (0xb8 :: 0x38 :: List.replicate 56 7) ∧
    (0xb8 :: 0x38 :: List.replicate 56 7 : List Nat) ≠
      0xb9 :: 0x00 :: 0x38 :: List.replicate 56 7 := by
  refine ⟨by decide, by decide, by decide⟩

/-- C3 (failing input): the long list form `f8 37` declares a payload length
of 55 ≤ 55, which the claim says must be rejected with `InvalidLength`; the
decoder's check is `len < 55`, so the input is accepted.  The byte-string long
form `b8 37` with the same declared length is rejected as the claim states. -/
theorem c3_long_list_len55_accepted :
    unpack_rlp (0xf8 :: 0x37 :: List.replicate 55 1) =
      .ok [.Nested (List.replicate 55 (.Bytes [1]))] ∧
    unpack_rlp (0xb8 :: 0x37 :: List.replicate 55 1) = .error .InvalidLength := by
  refine ⟨by decide, by decide⟩

/-! ### The deserializer bridge (`src/rlp/src/de.rs`) -/

/-- `Rlp::need_bytes`: pop the front value, which must be a byte string. -/
def need_bytes : Rlp → Except RlpError (List Nat × Rlp)
  | [] => .error .MissingBytes
  | .Bytes b :: rest => .ok (b, rest)
  | _ :: _ => .error .ExpectedBytes

/-- `Rlp::need_nested`: pop the front value, which must be a list. -/
def need_nested : Rlp → Except RlpError (List RecursiveBytes × Rlp)
  | [] => .error .MissingBytes
  | .Nested recs :: rest => .ok (recs, rest)
  | _ :: _ => .error .ExpectedList

/-- `Rlp::need_next`: pop the front value. -/
def need_next : Rlp → Except RlpError (RecursiveBytes × Rlp)
  | [] => .error .MissingBytes
  | r :: rest => .ok (r, rest)

/-- `Rlp::need_bytes_len::<S>(check_trailing)`: a byte string of at most `S`
bytes, rejected when a trailing check is requested and the first byte is
zero, then left-padded with zeros up to exactly `S` bytes. -/
def need_bytes_len (S : Nat) (check_trailing : Bool) (rlp : Rlp) :
    Except RlpError (List Nat × Rlp) := do
  let (bytes, rest) ← need_bytes rlp
  if bytes.length > S then .error .InvalidLength
  else if check_trailing && bytes.head? == some 0 then .error .TrailingBytes
  else .ok (List.replicate (S - bytes.length) 0 ++ bytes, rest)

/-- `Rlp::parse_bool`. -/
def parse_bool (rlp : Rlp) : Except RlpError (Bool × Rlp) := do
  let (bytes, rest) ← need_bytes_len 1 false rlp
  match bytes.headD 0 with
  | 0 => .ok (false, rest)
  | 1 => .ok (true, rest)
  | _ => .error .InvalidBytes

/-- `Rlp::parse_u8` .. `parse_u64` (the `parse_int!` macro for a `S`-byte
unsigned integer): big-endian value of the padded byte string. -/
def parse_uint (S : Nat) (rlp : Rlp) : Except RlpError (Nat × Rlp) := do
  let (bytes, rest) ← need_bytes_len S true rlp
  .ok (fromBeBytes bytes, rest)

/-- Two's-complement reading of an unsigned `S`-byte value (`from_be_bytes`
for the signed types). -/
def toSigned (S : Nat) (n : Nat) : Int :=
  if n < 2 ^ (8 * S - 1) then (n : Int) else (n : Int) - 2 ^ (8 * S)

/-- `Rlp::parse_i8` .. `parse_i64` (the `parse_int!` macro for a `S`-byte
signed integer). -/
def parse_sint (S : Nat) (rlp : Rlp) : Except RlpError (Int × Rlp) := do
  let (bytes, rest) ← need_bytes_len S true rlp
  .ok (toSigned S (fromBeBytes bytes), rest)

/-- `Rlp::parse_char`: one byte, no trailing check, converted as `u8 → char`. -/
def parse_char (rlp : Rlp) : Except RlpError (Nat × Rlp) := do
  let (bytes, rest) ← need_bytes_len 1 false rlp
  .ok (bytes.headD 0, rest)

/-- UTF-8 validity as enforced by `String::from_utf8` (shortest-form, no
surrogates, max U+10FFFF). -/
def validUtf8 : List Nat → Bool
  | [] => true
  | b1 :: rest =>
    if b1 ≤ 0x7f then validUtf8 rest
    else if 0xc2 ≤ b1 ∧ b1 ≤ 0xdf then
      match rest with
      | b2 :: rest2 => decide (0x80 ≤ b2 ∧ b2 ≤ 0xbf) && validUtf8 rest2
      | [] => false
    else if 0xe0 ≤ b1 ∧ b1 ≤ 0xef then
      match rest with
      | b2 :: b3 :: rest2 =>
        let lo2 := if b1 = 0xe0 then 0xa0 else 0x80
        let hi2 := if b1 = 0xed then 0x9f else 0xbf
        decide (lo2 ≤ b2 ∧ b2 ≤ hi2) && decide (0x80 ≤ b3 ∧ b3 ≤ 0xbf) && validUtf8 rest2
      | _ => false
    else if 0xf0 ≤ b1 ∧ b1 ≤ 0xf4 then
      match rest with
      | b2 :: b3 :: b4 :: rest2 =>
        let lo2 := if b1 = 0xf0 then 0x90 else 0x80
        let hi2 := if b1 = 0xf4 then 0x8f else 0xbf
        decide (lo2 ≤ b2 ∧ b2 ≤ hi2) && decide (0x80 ≤ b3 ∧ b3 ≤ 0xbf) &&
          decide (0x80 ≤ b4 ∧ b4 ≤ 0xbf) && validUtf8 rest2
      | _ => false
    else false

/-- `Rlp::parse_string`: any byte string that is valid UTF-8; the Rust
`String` result is modelled by its UTF-8 byte list. -/
def parse_string (rlp : Rlp) : Except RlpError (List Nat × Rlp) := do
  let (bytes, rest) ← need_bytes rlp
  if validUtf8 bytes then .ok (bytes, rest) else .error .InvalidBytes

/-- `Rlp::parse_bytes`. -/
def parse_bytes (rlp : Rlp) : Except RlpError (List Nat × Rlp) :=
  need_bytes rlp

/-! ### The serializer bridge (`src/rlp/src/ser.rs`)

The Rust `Serializer` keeps a deque of finished top-level values plus a stack
of `Rc<RefCell<_>>` handles to the currently open lists; a new list is linked
into its parent when it is opened and filled through the handle.  The state
below keeps, for each open list, the children pushed so far, and materialises
the `Nested` node into the parent when the list is closed.  Since pushes only
ever target the innermost open list, the parent cannot grow while a child is
open, so the node lands at the same position as the Rust `Rc` insertion and
the resulting `into_rlp` output is identical. -/

structure SerState where
  output : List RecursiveBytes
  stack : List (List RecursiveBytes)
deriving Repr, DecidableEq

def SerState.empty : SerState := ⟨[], []⟩

/-- Push one finished value into the innermost open list (or the output). -/
def SerState.pushItem (s : SerState) (item : RecursiveBytes) : SerState :=
  match s.stack with
  | top :: rest => { s with stack := (top ++ [item]) :: rest }
  | [] => { s with output := s.output ++ [item] }

/-- `Serializer::new_list`. -/
def SerState.newList (s : SerState) : SerState :=
  { s with stack := [] :: s.stack }

/-- `Serializer::end_list` (a pop on the empty stack is a no-op). -/
def SerState.endList (s : SerState) : SerState :=
  match s.stack with
  | top :: rest => SerState.pushItem { s with stack := rest } (.Nested top)
  | [] => s

/-- `Serializer::push_bytes`: with `fixed` set, strip leading zero bytes
(`position(|b| b > 0)` plus the slice is exactly `dropWhile (· == 0)`);
otherwise an empty slice becomes the `EmptyList` sentinel. -/
def SerState.push_bytes (s : SerState) (bytes : List Nat) (fixed : Bool) : SerState :=
  let item :=
    if fixed then RecursiveBytes.Bytes (bytes.dropWhile (· == 0))
    else if bytes.isEmpty then RecursiveBytes.EmptyList
    else RecursiveBytes.Bytes bytes
  s.pushItem item

/-- `Serializer::serialize_array`: push with the `fixed` flag. -/
def SerState.serialize_array (s : SerState) (bytes : List Nat) : SerState :=
  s.push_bytes bytes true

/-- `serialize_bool`. -/
def SerState.serialize_bool (s : SerState) (v : Bool) : SerState :=
  s.serialize_array (if v then [1] else [0])

/-- The `impl_int!` instances for `u8..u64`: `serialize_array(v.to_be_bytes())`. -/
def SerState.serialize_uint (s : SerState) (w : Nat) (v : Nat) : SerState :=
  s.serialize_array (beDigits w v)

/-- The `impl_int!` instances for `i8..i64`: `to_be_bytes` of the
two's-complement representation. -/
def SerState.serialize_sint (s : SerState) (w : Nat) (v : Int) : SerState :=
  s.serialize_array (beDigits w (v % ((2 : Int) ^ (8 * w))).toNat)

/-- `serialize_char`: the low byte of the code point (`v as u8`). -/
def SerState.serialize_char (s : SerState) (c : Nat) : SerState :=
  s.serialize_array [c % 256]

/-- `serialize_bytes` (and `serialize_str` on the string's UTF-8 bytes). -/
def SerState.serialize_bytes (s : SerState) (bytes : List Nat) : SerState :=
  s.push_bytes bytes false

/-- `serialize_unit`. -/
def SerState.serialize_unit (s : SerState) : SerState :=
  s.serialize_bytes []

/-! ### Arithmetic facts about big-endian byte strings -/

theorem foldBe_acc (l : List Nat) (acc : Nat) :
    l.foldl (fun a b => a * 256 + b) acc = acc * 256 ^ l.length + fromBeBytes l := by
  induction l generalizing acc with
  | nil => simp [fromBeBytes]
  | cons b t ih =>
    simp only [List.foldl_cons, List.length_cons, fromBeBytes]
    rw [ih (acc * 256 + b)]
    have hb : List.foldl (fun a c => a * 256 + c) (0 * 256 + b) t =
        b * 256 ^ t.length + fromBeBytes t := by
      rw [show 0 * 256 + b = b by ring, ih b]
    rw [hb]
    ring

theorem fromBeBytes_cons (b : Nat) (l : List Nat) :
    fromBeBytes (b :: l) = b * 256 ^ l.length + fromBeBytes l := by
  show (b :: l).foldl (fun a b => a * 256 + b) 0 = _
  simp only [List.foldl_cons]
  rw [foldBe_acc]
  ring_nf

theorem fromBeBytes_append_singleton (l : List Nat) (b : Nat) :
    fromBeBytes (l ++ [b]) = fromBeBytes l * 256 + b := by
  show (l ++ [b]).foldl (fun a b => a * 256 + b) 0 = _
  rw [List.foldl_append]
  rfl

theorem fromBeBytes_replicate_zero (k : Nat) (l : List Nat) :
    fromBeBytes (List.replicate k 0 ++ l) = fromBeBytes l := by
  induction k with
  | zero => simp
  | succ k ih =>
    rw [List.replicate_succ, List.cons_append, fromBeBytes_cons, ih]
    simp

theorem fromBeBytes_dropWhile_zero (l : List Nat) :
    fromBeBytes (l.dropWhile (· == 0)) = fromBeBytes l := by
  induction l with
  | nil => rfl
  | cons b t ih =>
    by_cases hb : b = 0
    · subst hb
      rw [List.dropWhile_cons_of_pos (by simp), ih, fromBeBytes_cons]
      simp
    · rw [List.dropWhile_cons_of_neg (by simp [hb])]

theorem dropWhile_zero_head_ne (l : List Nat) :
    ((l.dropWhile (· == 0)).head? == some 0) = false := by
  induction l with
  | nil => rfl
  | cons b t ih =>
    by_cases hb : b = 0
    · subst hb
      rw [List.dropWhile_cons_of_pos (by simp)]
      exact ih
    · rw [List.dropWhile_cons_of_neg (by simp [hb])]
      simp [hb]

theorem beDigits_length (w n : Nat) : (beDigits w n).length = w := by
  induction w generalizing n with
  | zero => rfl
  | succ w ih => simp [beDigits, ih]

theorem fromBeBytes_beDigits (w n : Nat) : fromBeBytes (beDigits w n) = n % 256 ^ w := by
  induction w generalizing n with
  | zero => simp [beDigits, fromBeBytes, Nat.mod_one]
  | succ w ih =>
    rw [beDigits, fromBeBytes_append_singleton, ih]
    rw [pow_succ', Nat.mod_mul]
    ring

theorem pow256_eq (w : Nat) : (256 : Nat) ^ w = 2 ^ (8 * w) := by
  rw [show (256 : Nat) = 2 ^ 8 from rfl, ← pow_mul]

theorem toSigned_toUnsigned (w : Nat) (hw : 1 ≤ w) (v : Int)
    (h1 : -(2 ^ (8 * w - 1)) ≤ v) (h2 : v < 2 ^ (8 * w - 1)) :
    toSigned w ((v % ((2 : Int) ^ (8 * w))).toNat) = v := by
  have hsplit : (2 : Int) ^ (8 * w) = 2 * 2 ^ (8 * w - 1) := by
    rw [← pow_succ']
    congr 1
    omega
  have hcast : ((2 ^ (8 * w - 1) : Nat) : Int) = (2 : Int) ^ (8 * w - 1) := by push_cast; rfl
  by_cases hv : 0 ≤ v
  · have hmod : v % (2 : Int) ^ (8 * w) = v := Int.emod_eq_of_lt hv (by omega)
    rw [hmod]
    unfold toSigned
    rw [if_pos (by omega)]
    omega
  · push_neg at hv
    have hmod : v % (2 : Int) ^ (8 * w) = v + 2 ^ (8 * w) := by
      have e1 : (v + 2 ^ (8 * w) * 1) % (2 : Int) ^ (8 * w) = v % (2 : Int) ^ (8 * w) :=
        Int.add_mul_emod_self_left v ((2 : Int) ^ (8 * w)) 1
      have e2 : (v + 2 ^ (8 * w)) % (2 : Int) ^ (8 * w) = v + 2 ^ (8 * w) :=
        Int.emod_eq_of_lt (by omega) (by omega)
    
      calc v % (2 : Int) ^ (8 * w) = (v + 2 ^ (8 * w) * 1) % (2 : Int) ^ (8 * w) := e1.symm
        _ = v + 2 ^ (8 * w) := by rw [mul_one, e2]
    rw [hmod]
    unfold toSigned
    rw [if_neg (by omega)]
    omega

/-! ### Integer and bool lowering facts -/

theorem dropWhile_length_le (p : Nat → Bool) (l : List Nat) :
    (l.dropWhile p).length ≤ l.length := by
  induction l with
  | nil => simp
  | cons b t ih =>
    by_cases h : p b
    · rw [List.dropWhile_cons_of_pos h]
      simp
      omega
    · rw [List.dropWhile_cons_of_neg h]

theorem parse_uint_strip (S n : Nat) (hn : n < 2 ^ (8 * S)) (rest : Rlp) :
    parse_uint S (.Bytes ((beDigits S n).dropWhile (· == 0)) :: rest) = .ok (n, rest) := by
  have h1 : ((beDigits S n).dropWhile (· == 0)).length ≤ S := by
    calc ((beDigits S n).dropWhile (· == 0)).length
        ≤ (beDigits S n).length := dropWhile_length_le _ _
      _ = S := beDigits_length S n
  have h2 := dropWhile_zero_head_ne (beDigits S n)
  simp only [parse_uint, need_bytes_len, need_bytes, bind, Except.bind]
  rw [if_neg (by omega)]
  simp only [Bool.true_and, h2, Bool.false_eq_true, if_false]
  rw [fromBeBytes_replicate_zero, fromBeBytes_dropWhile_zero, fromBeBytes_beDigits,
    pow256_eq, Nat.mod_eq_of_lt hn]

theorem parse_sint_strip (S : Nat) (hS : 1 ≤ S) (v : Int)
    (hlo : -(2 ^ (8 * S - 1)) ≤ v) (hhi : v < 2 ^ (8 * S - 1)) (rest : Rlp) :
    parse_sint S
      (.Bytes ((beDigits S ((v % ((2 : Int) ^ (8 * S))).toNat)).dropWhile (· == 0)) :: rest) =
      .ok (v, rest) := by
  have h1 : ((beDigits S ((v % ((2 : Int) ^ (8 * S))).toNat)).dropWhile (· == 0)).length ≤ S := by
    calc ((beDigits S ((v % ((2 : Int) ^ (8 * S))).toNat)).dropWhile (· == 0)).length
        ≤ (beDigits S ((v % ((2 : Int) ^ (8 * S))).toNat)).length := dropWhile_length_le _ _
      _ = S := beDigits_length S _
  have h2 := dropWhile_zero_head_ne (beDigits S ((v % ((2 : Int) ^ (8 * S))).toNat))
  have hub : ((v % ((2 : Int) ^ (8 * S))).toNat) < 2 ^ (8 * S) := by
    have hpos : (0 : Int) < 2 ^ (8 * S) := by positivity
    have hm := Int.emod_lt_of_pos v hpos
    have h0 := Int.emod_nonneg v (by positivity : ((2 : Int) ^ (8 * S)) ≠ 0)
    have hcast : ((2 ^ (8 * S) : Nat) : Int) = (2 : Int) ^ (8 * S) := by push_cast; rfl
    omega
  simp only [parse_sint, need_bytes_len, need_bytes, bind, Except.bind]
  rw [if_neg (by omega)]
  simp only [Bool.true_and, h2, Bool.false_eq_true, if_false]
  rw [fromBeBytes_replicate_zero, fromBeBytes_dropWhile_zero, fromBeBytes_beDigits,
    pow256_eq, Nat.mod_eq_of_lt hub, toSigned_toUnsigned S hS v hlo hhi]

theorem parse_uint_too_long (S : Nat) (payload : List Nat) (rest : Rlp)
    (h : payload.length > S) :
    parse_uint S (.Bytes payload :: rest) = .error .InvalidLength := by
  simp only [parse_uint, need_bytes_len, need_bytes, bind, Except.bind]
  rw [if_pos h]

theorem parse_uint_leading_zero (S : Nat) (payload : List Nat) (rest : Rlp)
    (hlen : payload.length ≤ S) (hz : payload.head? = some 0) :
    parse_uint S (.Bytes payload :: rest) = .error .TrailingBytes := by
  simp only [parse_uint, need_bytes_len, need_bytes, bind, Except.bind]
  rw [if_neg (by omega)]
  simp [hz]

theorem parse_sint_too_long (S : Nat) (payload : List Nat) (rest : Rlp)
    (h : payload.length > S) :
    parse_sint S (.Bytes payload :: rest) = .error .InvalidLength := by
  simp only [parse_sint, need_bytes_len, need_bytes, bind, Except.bind]
  rw [if_pos h]

theorem parse_sint_leading_zero (S : Nat) (payload : List Nat) (rest : Rlp)
    (hlen : payload.length ≤ S) (hz : payload.head? = some 0) :
    parse_sint S (.Bytes payload :: rest) = .error .TrailingBytes := by
  simp only [parse_sint, need_bytes_len, need_bytes, bind, Except.bind]
  rw [if_neg (by omega)]
  simp [hz]

theorem need_bytes_len_pads (S : Nat) (payload : List Nat) (rest : Rlp)
    (hlen : payload.length ≤ S) (hz : (payload.head? == some 0) = false) :
    need_bytes_len S true (.Bytes payload :: rest) =
      .ok (List.replicate (S - payload.length) 0 ++ payload, rest) := by
  simp only [need_bytes_len, need_bytes, bind, Except.bind]
  rw [if_neg (by omega)]
  simp only [Bool.true_and, hz, Bool.false_eq_true, if_false]

/-- `from_bytes::<uN>`: unpack the wire bytes and drive the `u8..u64`
deserializer (`rlp_rs::from_bytes` performs no leftover check). -/
def from_bytes_uint (S : Nat) (bytes : List Nat) : Except RlpError Nat := do
  let rlp ← unpack_rlp bytes
  let (v, _) ← parse_uint S rlp
  .ok v

/-- C8: unsigned decoding left-pads short payloads to the full width, and
rejects any payload whose first byte is zero with `TrailingBytes`; in
particular the three literal inputs of the spec all fail that way. -/
theorem c8_uint_leading_zero_rejected :
    (∀ (S : Nat) (payload : List Nat) (rest : Rlp), payload.length ≤ S →
      payload.head? = some 0 →
      parse_uint S (.Bytes payload :: rest) = .error .TrailingBytes) ∧
    (∀ (S : Nat) (payload : List Nat) (rest : Rlp), payload.length ≤ S →
      (payload.head? == some 0) = false →
      need_bytes_len S true (.Bytes payload :: rest) =
        .ok (List.replicate (S - payload.length) 0 ++ payload, rest)) ∧
    from_bytes_uint 8 [0x83, 0x00, 0x00, 0x01] = .error .TrailingBytes ∧
    from_bytes_uint 1 [0x00] = .error .TrailingBytes ∧
    from_bytes_uint 2 [0x82, 0x00, 0xff] = .error .TrailingBytes := by
  refine ⟨parse_uint_leading_zero, need_bytes_len_pads, by decide, by decide, by decide⟩

/-- C8 witness: the universal parts applied at concrete inputs. -/
theorem c8_uint_leading_zero_rejected_witness :
    parse_uint 8 [.Bytes [0, 0, 1]] = .error .TrailingBytes ∧
    need_bytes_len 2 true [.Bytes [1]] = .ok ([0, 1], []) := by
  constructor
  · exact c8_uint_leading_zero_rejected.1 8 [0, 0, 1] [] (by decide) (by decide)
  · exact c8_uint_leading_zero_rejected.2.1 2 [1] [] (by decide) (by decide)

/-- C7 (counterexample): serializing the `i16` value 1 emits the single byte
`0x01` — the leading zero of the two's-complement bytes `00 01` IS stripped
(`serialize_array` pushes with the `fixed` flag) — and the signed decoder
accepts the empty byte string for `i8` (left-padding it to zero) rather than
demanding the exact width. -/
theorem c7_counterexample :
    (SerState.empty.serialize_sint 2 1).output = [.Bytes [1]] ∧
    [RecursiveBytes.Bytes [1]] ≠ [RecursiveBytes.Bytes [0, 1]] ∧
    parse_sint 1 [.Bytes []] = .ok (0, []) := by
  refine ⟨by decide, by decide, by decide⟩

/-- C7 (amended): fixed-width signed integers are serialized exactly like the
unsigned ones — big-endian two's-complement bytes with leading zero bytes
stripped — and the decoder accepts any payload of at most the type's width,
left-pads it, rejecting a payload longer than the width with `InvalidLength`
and a payload whose first byte is zero with `TrailingBytes`. -/
theorem c7_signed_int_stripped (w : Nat) (hw : 1 ≤ w) (v : Int)
    (hlo : -(2 ^ (8 * w - 1)) ≤ v) (hhi : v < 2 ^ (8 * w - 1))
    (s : SerState) (rest : Rlp) :
    s.serialize_sint w v =
      s.pushItem (.Bytes ((beDigits w ((v % ((2 : Int) ^ (8 * w))).toNat)).dropWhile (· == 0))) ∧
    parse_sint w
      (.Bytes ((beDigits w ((v % ((2 : Int) ^ (8 * w))).toNat)).dropWhile (· == 0)) :: rest) =
      .ok (v, rest) ∧
    (∀ (payload : List Nat) (r2 : Rlp), payload.length > w →
      parse_sint w (.Bytes payload :: r2) = .error .InvalidLength) ∧
    (∀ (payload : List Nat) (r2 : Rlp), payload.length ≤ w → payload.head? = some 0 →
      parse_sint w (.Bytes payload :: r2) = .error .TrailingBytes) := by
  refine ⟨rfl, parse_sint_strip w hw v hlo hhi rest, ?_, ?_⟩
  · intro payload r2 h
    exact parse_sint_too_long w payload r2 h
  · intro payload r2 h1 h2
    exact parse_sint_leading_zero w payload r2 h1 h2

/-- C7 witness: the amended statement at `w = 1`, `v = -1`. -/
theorem c7_signed_int_stripped_witness :
    (SerState.empty.serialize_sint 1 (-1)) =
      SerState.empty.pushItem (.Bytes [255]) ∧
    parse_sint 1 [.Bytes [255]] = .ok (-1, []) ∧
    parse_sint 1 [.Bytes [1, 2]] = .error .InvalidLength ∧
    parse_sint 1 [.Bytes [0]] = .error .TrailingBytes := by
  have h := c7_signed_int_stripped 1 (by decide) (-1) (by decide) (by decide) SerState.empty []
  refine ⟨h.1, h.2.1, h.2.2.1 [1, 2] [] (by decide), h.2.2.2 [0] [] (by decide) (by decide)⟩

/-- C9 (counterexample): the bridge lowers `false` to the EMPTY byte string,
not to a one-byte `0x00` value: `serialize_bool` goes through
`serialize_array`, whose `fixed` flag strips the zero byte. -/
theorem c9_counterexample :
    (SerState.empty.serialize_bool false).output = [.Bytes []] ∧
    [RecursiveBytes.Bytes []] ≠ [RecursiveBytes.Bytes [0]] := by
  refine ⟨by decide, by decide⟩

/-- C9 (amended): `true` lowers to the one-byte string `0x01` while `false`
lowers to the empty byte string (packing to `0x80` on the wire); decoding a
bool maps the empty string and `0x00` to `false`, `0x01` to `true`, fails
with `InvalidBytes` on any other single byte, and with `InvalidLength` on
longer payloads. -/
theorem c9_bool_lowering (rest : Rlp) :
    (SerState.empty.serialize_bool true).output = [.Bytes [1]] ∧
    (SerState.empty.serialize_bool false).output = [.Bytes []] ∧
    pack_rlp (SerState.empty.serialize_bool false).output = .ok [0x80] ∧
    parse_bool (.Bytes [0] :: rest) = .ok (false, rest) ∧
    parse_bool (.Bytes [1] :: rest) = .ok (true, rest) ∧
    parse_bool (.Bytes [] :: rest) = .ok (false, rest) ∧
    (∀ b : Nat, b ≠ 0 → b ≠ 1 → parse_bool (.Bytes [b] :: rest) = .error .InvalidBytes) ∧
    (∀ payload : List Nat, payload.length > 1 →
      parse_bool (.Bytes payload :: rest) = .error .InvalidLength) := by
  refine ⟨by decide, by decide, by decide, rfl, rfl, rfl, ?_, ?_⟩
  · intro b hb0 hb1
    rcases b with _ | b
    · exact absurd rfl hb0
    rcases b with _ | b
    · exact absurd rfl hb1
    rfl
  · intro payload h
    simp only [parse_bool, need_bytes_len, need_bytes, bind, Except.bind]
    rw [if_pos h]

/-- C9 witness: the universal parts at concrete inputs. -/
theorem c9_bool_lowering_witness :
    parse_bool [.Bytes [7]] = .error .InvalidBytes ∧
    parse_bool [.Bytes [0, 0]] = .error .InvalidLength := by
  refine ⟨(c9_bool_lowering []).2.2.2.2.2.2.1 7 (by decide) (by decide),
    (c9_bool_lowering []).2.2.2.2.2.2.2 [0, 0] (by decide)⟩

/-! ### The decoder only depends on the bytes after the cursor -/

theorem sliceGet_shift (bytes : List Nat) (cursor a b : Nat) (h : cursor ≤ bytes.length) :
    sliceGet bytes (cursor + a) (cursor + b) = sliceGet (bytes.drop cursor) a b := by
  unfold sliceGet
  have hlen : (bytes.drop cursor).length = bytes.length - cursor := by simp
  by_cases hc : a ≤ b ∧ b ≤ (bytes.drop cursor).length
  · rw [if_pos (by omega), if_pos hc]
    rw [List.drop_drop]
    rw [show cursor + b - (cursor + a) = b - a from by omega]
  · rw [if_neg (by omega), if_neg hc]

theorem sliceGet_append_exact (pre mid post : List Nat) :
    sliceGet (pre ++ mid ++ post) pre.length (pre.length + mid.length) = some mid := by
  unfold sliceGet
  rw [if_pos (by simp only [List.length_append]; omega)]
  rw [Nat.add_sub_cancel_left]
  rw [List.append_assoc, List.drop_left, List.take_left]

/-- Normalisation performed by a wire round-trip: packing emits `0x80` for
`EmptyList`, which unpacks as the empty byte string. -/
def normRec : RecursiveBytes → RecursiveBytes
  | .Bytes b => .Bytes b
  | .EmptyList => .Bytes []
  | .Nested recs => .Nested (normListAux recs)
where
  normListAux : List RecursiveBytes → List RecursiveBytes
    | [] => []
    | r :: rs => normRec r :: normListAux rs

/-- `normRec` on every element of a document. -/
def normList (recs : List RecursiveBytes) : List RecursiveBytes :=
  normRec.normListAux recs

mutual

/-- Rust-representability of a tree: every byte string and every encoded
list payload fits in a `usize`. -/
def treeOk : RecursiveBytes → Bool
  | .Bytes b => decide (b.length ≤ usizeMax)
  | .EmptyList => true
  | .Nested recs => treeOkList recs && decide ((encList recs).length ≤ usizeMax)

/-- `treeOk` on every element. -/
def treeOkList : List RecursiveBytes → Bool
  | [] => true
  | r :: rs => treeOk r && treeOkList rs

end

theorem parse_num_getD (bs : List Nat) :
    (parse_num bs).getD [] = bs.dropWhile (· == 0) := by
  unfold parse_num
  cases h : bs.dropWhile (· == 0) with
  | nil => simp [h]
  | cons x xs => simp

theorem dropWhile_zero_headD_ne (l : List Nat) :
    ((l.dropWhile (· == 0)).headD 1 == 0) = false := by
  have h := dropWhile_zero_head_ne l
  cases hc : l.dropWhile (· == 0) with
  | nil => rfl
  | cons x xs =>
    rw [hc] at h
    simp only [List.head?_cons] at h
    simp only [List.headD_cons]
    simpa using h

theorem dropWhile_zero_ne_nil (l : List Nat) (h : fromBeBytes l ≠ 0) :
    l.dropWhile (· == 0) ≠ [] := by
  intro hc
  apply h
  rw [← fromBeBytes_dropWhile_zero, hc]
  rfl

/-- The list header emitted by `serialize_list_len`. -/
def listHdrOf (len : Nat) : List Nat :=
  if len ≤ 55 then [0xc0 + len]
  else
    let len_bytes := (parse_num (beDigits 8 len)).getD []
    (0xf7 + len_bytes.length) :: len_bytes

theorem serialize_list_len_eq (len : Nat) :
    serialize_list_len len = .ok (listHdrOf len) := by
  unfold serialize_list_len listHdrOf
  by_cases h : len ≤ 55 <;> simp [h]

theorem encOne_bytes (b : List Nat) : encOne (.Bytes b) = encBytesOf b := by
  unfold encOne
  rw [recursive_pack_rlp, append_rlp_bytes_eq]
  simp

theorem encOne_empty : encOne .EmptyList = [0x80] := by
  unfold encOne
  rw [recursive_pack_rlp]
  simp

theorem encOne_nested (recs : List RecursiveBytes) :
    encOne (.Nested recs) = listHdrOf (encList recs).length ++ encList recs := by
  have hfold : pack_fold recs 0 [] = .ok ((encList recs).length, encList recs) := by
    have := (pack_strong (sizeOf recs)).2 recs 0 [] le_rfl
    simpa using this
  unfold encOne
  rw [recursive_pack_rlp, hfold]
  simp only [bind, Except.bind]
  rw [serialize_list_len_eq]
  simp

theorem getElem0_drop (bytes : List Nat) (cursor : Nat) :
    bytes[cursor]? = (bytes.drop cursor)[0]? := by
  rw [List.getElem?_drop, Nat.add_zero]

theorem drop_cursor_add (bytes : List Nat) (cursor d : Nat) :
    bytes.drop (cursor + d) = (bytes.drop cursor).drop d := by
  rw [List.drop_drop]

theorem encBytesOf_length_pos (b : List Nat) : 1 ≤ (encBytesOf b).length := by
  unfold encBytesOf
  split_ifs with h1 h2
  · simp only [Bool.and_eq_true, beq_iff_eq] at h1
    omega
  · simp
  · simp

theorem listHdrOf_length_pos (len : Nat) : 1 ≤ (listHdrOf len).length := by
  unfold listHdrOf
  split_ifs <;> simp

theorem encOne_length_pos (rec : RecursiveBytes) : 1 ≤ (encOne rec).length := by
  cases rec with
  | Bytes b => rw [encOne_bytes]; exact encBytesOf_length_pos b
  | EmptyList => rw [encOne_empty]; simp
  | Nested recs =>
    rw [encOne_nested]
    have := listHdrOf_length_pos (encList recs).length
    simp only [List.length_append]
    omega

theorem normList_nil : normList [] = [] := rfl
theorem normList_cons (r : RecursiveBytes) (rs : List RecursiveBytes) :
    normList (r :: rs) = normRec r :: normList rs := rfl

/-- Unpacking a packed document: the decoder reproduces every packed tree up
to `norm` (which only rewrites `EmptyList` to the empty byte string).  The
statement is over an arbitrary buffer whose suffix at `cursor` is the
encoding, so the continuation recursion stays inside one buffer. -/
theorem unpack_enc_aux :
    ∀ n : Nat, ∀ recs : List RecursiveBytes, sizeOf recs ≤ n →
      ∀ (fuel : Nat) (bytes : List Nat) (cursor : Nat),
        treeOkList recs = true →
        bytes.drop cursor = encList recs →
        bytes.length ≤ usizeMax →
        bytes.length - cursor < fuel →
        unpackAux fuel bytes cursor = .ok (normList recs) := by
  intro n
  induction n using Nat.strong_induction_on with
  | _ n ih =>
    intro recs hsz fuel bytes cursor hok hdrop hmax hfuel
    rcases fuel with _ | g
    · omega
    cases recs with
    | nil =>
      have hnil : bytes.drop cursor = [] := by rw [hdrop]; rfl
      rw [unpackAux_succ, unpackStep, getElem0_drop, hnil]
      rfl
    | cons r rs =>
      simp only [treeOkList, Bool.and_eq_true] at hok
      obtain ⟨hokr, hokrs⟩ := hok
      have hdropc : bytes.drop cursor = encOne r ++ encList rs := by
        rw [hdrop, encList_cons]
      have hpos := encOne_length_pos r
      have hcur : cursor < bytes.length := by
        by_contra hc
        push_neg at hc
        have hdn : bytes.drop cursor = [] := List.drop_eq_nil_of_le hc
        rw [hdn] at hdropc
        have hl := congrArg List.length hdropc
        simp at hl
        omega
      have hsuffix : bytes.length - cursor = (encOne r).length + (encList rs).length := by
        have hl := congrArg List.length hdropc
        simp at hl
        omega
      have hcont : bytes.drop (cursor + (encOne r).length) = encList rs := by
        rw [drop_cursor_add, hdropc, List.drop_left]
      have htail : unpackAux g bytes (cursor + (encOne r).length) = .ok (normList rs) := by
        refine ih (sizeOf rs) ?_ rs le_rfl g bytes (cursor + (encOne r).length)
          hokrs hcont hmax ?_
        · have hs : sizeOf (r :: rs) = 1 + sizeOf r + sizeOf rs := by simp
          omega
        · omega
      rw [normList_cons, unpackAux_succ, unpackStep]
      cases r with
      | Bytes b =>
        rw [encOne_bytes] at hdropc hcont htail hsuffix hpos
        by_cases hA : b.length = 1 ∧ b.headD 0 ≤ 127
        · obtain ⟨x, hx⟩ := List.length_eq_one.mp hA.1
          subst hx
          have hx127 : x ≤ 127 := by simpa using hA.2
          have hbenc : encBytesOf [x] = [x] := by
            unfold encBytesOf
            rw [if_pos (by simp [hx127])]
          rw [hbenc] at hdropc htail
          have hdisc : bytes[cursor]? = some x := by
            rw [getElem0_drop, hdropc]
            simp
          simp only [hdisc]
          rw [if_pos (by omega : x ≤ 0x7f)]
          simp only [List.length_cons, List.length_nil, Nat.zero_add] at htail
          rw [htail]
          simp [Except.map, normRec]
        · by_cases hb55 : b.length ≤ 55
          · have hcond : (b.length == 1 && decide (b.headD 0 ≤ 127)) = false := by
              rcases b with _ | ⟨y, ys⟩
              · simp
              · rcases ys with _ | ⟨z, zs⟩
                · have hy : ¬ y ≤ 127 := fun h => hA ⟨rfl, by simpa using h⟩
                  simp [hy]
                · simp
            have hbenc : encBytesOf b = (0x80 + b.length) :: b := by
              unfold encBytesOf
              rw [hcond]
              simp [hb55]
            rw [hbenc] at hdropc htail
            have hdisc : bytes[cursor]? = some (0x80 + b.length) := by
              rw [getElem0_drop, hdropc]
              simp
            simp only [hdisc]
            rw [if_neg (by omega), if_pos (by omega : 0x80 + b.length ≤ 0xb7)]
            have harith : 0x80 + b.length - 0x80 = b.length := by omega
            simp only [harith]
            have hslice : sliceGet bytes (cursor + 1) (cursor + 1 + b.length) = some b := by
              rw [show cursor + 1 + b.length = cursor + (1 + b.length) from by omega,
                sliceGet_shift bytes cursor 1 (1 + b.length) (le_of_lt hcur), hdropc]
              have he := sliceGet_append_exact [0x80 + b.length] b (encList rs)
              simpa using he
            simp only [hslice]
            simp only [hcond, Bool.false_eq_true, if_false]
            simp only [List.length_cons] at htail
            rw [show cursor + 1 + b.length = cursor + (b.length + 1) from by omega, htail]
            simp [Except.map, normRec]
          · simp only [treeOk, decide_eq_true_eq] at hokr
            have hb0 : b.length ≠ 0 := by omega
            have hfromd : fromBeBytes (beDigits 8 b.length) = b.length := by
              rw [fromBeBytes_beDigits]
              exact Nat.mod_eq_of_lt (by unfold usizeMax at hokr; omega)
            have hlbne : (beDigits 8 b.length).dropWhile (· == 0) ≠ [] :=
              dropWhile_zero_ne_nil _ (by omega)
            have hk1 : 1 ≤ ((beDigits 8 b.length).dropWhile (· == 0)).length := by
              cases hc : (beDigits 8 b.length).dropWhile (· == 0) with
              | nil => exact absurd hc hlbne
              | cons y ys => simp
            have hk8 : ((beDigits 8 b.length).dropWhile (· == 0)).length ≤ 8 := by
              calc ((beDigits 8 b.length).dropWhile (· == 0)).length
                  ≤ (beDigits 8 b.length).length := dropWhile_length_le _ _
                _ = 8 := beDigits_length 8 _
            have hfromlb : fromBeBytes ((beDigits 8 b.length).dropWhile (· == 0)) = b.length := by
              rw [fromBeBytes_dropWhile_zero, hfromd]
            have hcond : (b.length == 1 && decide (b.headD 0 ≤ 127)) = false := by
              rcases b with _ | ⟨y, ys⟩
              · simp
              · rcases ys with _ | ⟨z, zs⟩
                · have hy : ¬ y ≤ 127 := fun h => hA ⟨rfl, by simpa using h⟩
                  simp [hy]
                · simp
            have hbenc : encBytesOf b =
                (0xb7 + ((beDigits 8 b.length).dropWhile (· == 0)).length) ::
                  ((beDigits 8 b.length).dropWhile (· == 0)) ++ b := by
              unfold encBytesOf
              simp only [hcond, Bool.false_eq_true, if_false, if_neg hb55, parse_num_getD]
            rw [hbenc] at hdropc htail
            have hdisc : bytes[cursor]? =
                some (0xb7 + ((beDigits 8 b.length).dropWhile (· == 0)).length) := by
              rw [getElem0_drop, hdropc]
              simp
            simp only [hdisc]
            rw [if_neg (by omega), if_neg (by omega),
              if_pos (by omega : 0xb7 + ((beDigits 8 b.length).dropWhile (· == 0)).length ≤ 0xbf)]
            have harith : 0xb7 + ((beDigits 8 b.length).dropWhile (· == 0)).length - 0xb7 =
                ((beDigits 8 b.length).dropWhile (· == 0)).length := by omega
            simp only [harith]
            rw [if_neg (by omega)]
            have hslice1 : sliceGet bytes (cursor + 1)
                (cursor + 1 + ((beDigits 8 b.length).dropWhile (· == 0)).length) =
                some ((beDigits 8 b.length).dropWhile (· == 0)) := by
              rw [show cursor + 1 + ((beDigits 8 b.length).dropWhile (· == 0)).length =
                cursor + (1 + ((beDigits 8 b.length).dropWhile (· == 0)).length) from by omega,
                sliceGet_shift bytes cursor 1 _ (le_of_lt hcur), hdropc]
              simp only [List.cons_append, List.append_assoc]
              have he := sliceGet_append_exact
                [0xb7 + ((beDigits 8 b.length).dropWhile (· == 0)).length]
                ((beDigits 8 b.length).dropWhile (· == 0)) (b ++ encList rs)
              simp only [List.length_cons, List.length_nil, Nat.zero_add, List.cons_append,
                List.nil_append, List.append_assoc] at he
              exact he
            simp only [hslice1, hfromlb]
            rw [if_neg hb55]
            have hsuflen : (((0xb7 + ((beDigits 8 b.length).dropWhile (· == 0)).length) ::
                ((beDigits 8 b.length).dropWhile (· == 0)) ++ b) ++ encList rs).length =
                bytes.length - cursor := by
              rw [← hdropc]
              simp
            simp only [List.length_append, List.length_cons] at hsuflen
            rw [if_neg (by unfold usizeMax at hmax ⊢; omega)]
            have hslice2 : sliceGet bytes
                (cursor + 1 + ((beDigits 8 b.length).dropWhile (· == 0)).length)
                (cursor + 1 + ((beDigits 8 b.length).dropWhile (· == 0)).length + b.length) =
                some b := by
              rw [show cursor + 1 + ((beDigits 8 b.length).dropWhile (· == 0)).length =
                cursor + (((beDigits 8 b.length).dropWhile (· == 0)).length + 1) from by omega]
              rw [show cursor + (((beDigits 8 b.length).dropWhile (· == 0)).length + 1) + b.length =
                cursor + (((beDigits 8 b.length).dropWhile (· == 0)).length + 1 + b.length) from
                by omega]
              rw [sliceGet_shift bytes cursor _ _ (le_of_lt hcur), hdropc]
              simp only [List.cons_append, List.append_assoc]
              have he := sliceGet_append_exact
                ((0xb7 + ((beDigits 8 b.length).dropWhile (· == 0)).length) ::
                  ((beDigits 8 b.length).dropWhile (· == 0))) b (encList rs)
              simp only [List.length_cons, List.cons_append, List.append_assoc] at he
              exact he
            simp only [hslice2]
            simp only [List.length_cons, List.length_append] at htail
            rw [show cursor + 1 + ((beDigits 8 b.length).dropWhile (· == 0)).length + b.length =
              cursor + (((beDigits 8 b.length).dropWhile (· == 0)).length + 1 + b.length) from
              by omega]
            rw [htail]
            simp [Except.map, normRec]
      | EmptyList =>
        rw [encOne_empty] at hdropc hcont htail hsuffix hpos
        have htail1 : unpackAux g bytes (cursor + 1) = .ok (normList rs) := by
          simpa using htail
        have hdisc : bytes[cursor]? = some 0x80 := by
          rw [getElem0_drop, hdropc]
          simp
        simp only [hdisc]
        rw [if_neg (by omega), if_pos (by omega : (0x80 : Nat) ≤ 0xb7)]
        have harith : (0x80 : Nat) - 0x80 = 0 := by omega
        simp only [harith, Nat.add_zero]
        have hslice : sliceGet bytes (cursor + 1) (cursor + 1) = some [] := by
          rw [sliceGet_shift bytes cursor 1 1 (le_of_lt hcur), hdropc]
          have he := sliceGet_append_exact [0x80] [] (encList rs)
          simpa using he
        simp only [hslice]
        rw [if_neg (by decide)]
        rw [htail1]
        simp [Except.map, normRec]
      | Nested inner =>
        rw [encOne_nested] at hdropc hcont htail hsuffix hpos
        simp only [treeOk, Bool.and_eq_true, decide_eq_true_eq] at hokr
        obtain ⟨hoki, hpmax⟩ := hokr
        have hhp := listHdrOf_length_pos (encList inner).length
        have hinner : unpackAux g (encList inner) 0 = .ok (normList inner) := by
          refine ih (sizeOf inner) ?_ inner le_rfl g (encList inner) 0 hoki (by simp) hpmax ?_
          · have hs1 : sizeOf (RecursiveBytes.Nested inner :: rs) =
                1 + (1 + sizeOf inner) + sizeOf rs := by simp
            omega
          · simp only [List.length_append] at hsuffix
            omega
        by_cases hp55 : (encList inner).length ≤ 55
        · have hhdr : listHdrOf (encList inner).length = [0xc0 + (encList inner).length] := by
            unfold listHdrOf
            rw [if_pos hp55]
          rw [hhdr] at hdropc htail
          have hdisc : bytes[cursor]? = some (0xc0 + (encList inner).length) := by
            rw [getElem0_drop, hdropc]
            simp
          simp only [hdisc]
          rw [if_neg (by omega), if_neg (by omega), if_neg (by omega),
            if_pos (by omega : 0xc0 + (encList inner).length ≤ 0xf7)]
          have harith : 0xc0 + (encList inner).length - 0xc0 = (encList inner).length := by
            omega
          simp only [harith]
          have hslice : sliceGet bytes (cursor + 1) (cursor + 1 + (encList inner).length) =
              some (encList inner) := by
            rw [show cursor + 1 + (encList inner).length =
              cursor + (1 + (encList inner).length) from by omega,
              sliceGet_shift bytes cursor 1 _ (le_of_lt hcur), hdropc]
            simp only [List.cons_append, List.append_assoc]
            have he := sliceGet_append_exact [0xc0 + (encList inner).length]
              (encList inner) (encList rs)
            simp only [List.length_cons, List.length_nil, Nat.zero_add, List.cons_append,
              List.nil_append, List.append_assoc] at he
            exact he
          simp only [hslice, hinner]
          simp only [List.length_append, List.length_cons, List.length_nil] at htail
          rw [show cursor + 1 + (encList inner).length =
            cursor + (0 + 1 + (encList inner).length) from by omega]
          rw [htail]
          simp [Except.map, normRec, normList]
        · have hp0 : (encList inner).length ≠ 0 := by omega
          have hfromd : fromBeBytes (beDigits 8 (encList inner).length) =
              (encList inner).length := by
            rw [fromBeBytes_beDigits]
            exact Nat.mod_eq_of_lt (by unfold usizeMax at hpmax; omega)
          have hlbne : (beDigits 8 (encList inner).length).dropWhile (· == 0) ≠ [] :=
            dropWhile_zero_ne_nil _ (by omega)
          have hk1 : 1 ≤ ((beDigits 8 (encList inner).length).dropWhile (· == 0)).length := by
            cases hc : (beDigits 8 (encList inner).length).dropWhile (· == 0) with
            | nil => exact absurd hc hlbne
            | cons y ys => simp
          have hk8 : ((beDigits 8 (encList inner).length).dropWhile (· == 0)).length ≤ 8 := by
            calc ((beDigits 8 (encList inner).length).dropWhile (· == 0)).length
                ≤ (beDigits 8 (encList inner).length).length := dropWhile_length_le _ _
              _ = 8 := beDigits_length 8 _
          have hfromlb :
              fromBeBytes ((beDigits 8 (encList inner).length).dropWhile (· == 0)) =
              (encList inner).length := by
            rw [fromBeBytes_dropWhile_zero, hfromd]
          have hhdr : listHdrOf (encList inner).length =
              (0xf7 + ((beDigits 8 (encList inner).length).dropWhile (· == 0)).length) ::
                ((beDigits 8 (encList inner).length).dropWhile (· == 0)) := by
            unfold listHdrOf
            rw [if_neg hp55, parse_num_getD]
          rw [hhdr] at hdropc htail
          have hdisc : bytes[cursor]? = some
              (0xf7 + ((beDigits 8 (encList inner).length).dropWhile (· == 0)).length) := by
            rw [getElem0_drop, hdropc]
            simp
          simp only [hdisc]
          rw [if_neg (by omega), if_neg (by omega), if_neg (by omega), if_neg (by omega)]
          have harith :
              0xf7 + ((beDigits 8 (encList inner).length).dropWhile (· == 0)).length - 0xf7 =
              ((beDigits 8 (encList inner).length).dropWhile (· == 0)).length := by omega
          simp only [harith]
          have hslice1 : sliceGet bytes (cursor + 1)
              (cursor + 1 + ((beDigits 8 (encList inner).length).dropWhile (· == 0)).length) =
              some ((beDigits 8 (encList inner).length).dropWhile (· == 0)) := by
            rw [show cursor + 1 +
                ((beDigits 8 (encList inner).length).dropWhile (· == 0)).length =
              cursor + (1 + ((beDigits 8 (encList inner).length).dropWhile (· == 0)).length)
              from by omega,
              sliceGet_shift bytes cursor 1 _ (le_of_lt hcur), hdropc]
            simp only [List.cons_append, List.append_assoc]
            have he := sliceGet_append_exact
              [0xf7 + ((beDigits 8 (encList inner).length).dropWhile (· == 0)).length]
              ((beDigits 8 (encList inner).length).dropWhile (· == 0))
              (encList inner ++ encList rs)
            simp only [List.length_cons, List.length_nil, Nat.zero_add, List.cons_append,
              List.nil_append, List.append_assoc] at he
            exact he
          simp only [hslice1]
          rw [dropWhile_zero_headD_ne]
          simp only [Bool.false_eq_true, if_false]
          simp only [hfromlb]
          rw [if_neg (by omega)]
          have hsuflen :
              (((0xf7 + ((beDigits 8 (encList inner).length).dropWhile (· == 0)).length) ::
                ((beDigits 8 (encList inner).length).dropWhile (· == 0)) ++ encList inner) ++
                encList rs).length = bytes.length - cursor := by
            rw [← hdropc]
            simp
          simp only [List.length_append, List.length_cons] at hsuflen
          rw [if_neg (by unfold usizeMax at hmax ⊢; omega)]
          have hslice2 : sliceGet bytes
              (cursor + 1 + ((beDigits 8 (encList inner).length).dropWhile (· == 0)).length)
              (cursor + 1 + ((beDigits 8 (encList inner).length).dropWhile (· == 0)).length +
                (encList inner).length) = some (encList inner) := by
            rw [show cursor + 1 +
                ((beDigits 8 (encList inner).length).dropWhile (· == 0)).length =
              cursor + (((beDigits 8 (encList inner).length).dropWhile (· == 0)).length + 1)
              from by omega]
            rw [show cursor +
                (((beDigits 8 (encList inner).length).dropWhile (· == 0)).length + 1) +
                (encList inner).length =
              cursor + (((beDigits 8 (encList inner).length).dropWhile (· == 0)).length + 1 +
                (encList inner).length) from by omega]
            rw [sliceGet_shift bytes cursor _ _ (le_of_lt hcur), hdropc]
            simp only [List.cons_append, List.append_assoc]
            have he := sliceGet_append_exact
              ((0xf7 + ((beDigits 8 (encList inner).length).dropWhile (· == 0)).length) ::
                ((beDigits 8 (encList inner).length).dropWhile (· == 0)))
              (encList inner) (encList rs)
            simp only [List.length_cons, List.cons_append, List.append_assoc] at he
            exact he
          simp only [hslice2, hinner]
          simp only [List.length_append, List.length_cons] at htail
          rw [show cursor + 1 +
              ((beDigits 8 (encList inner).length).dropWhile (· == 0)).length +
              (encList inner).length =
            cursor + (((beDigits 8 (encList inner).length).dropWhile (· == 0)).length + 1 +
              (encList inner).length) from by omega]
          rw [htail]
          simp [Except.map, normRec, normList]

theorem unpack_encList (recs : List RecursiveBytes) (h1 : treeOkList recs = true)
    (h2 : (encList recs).length ≤ usizeMax) :
    unpack_rlp (encList recs) = .ok (normList recs) := by
  unfold unpack_rlp recursive_unpack_rlp
  exact unpack_enc_aux (sizeOf recs) recs le_rfl _ (encList recs) 0 h1 (by simp) h2 (by omega)

/-! ### A deep embedding of the serde-supported type shapes (L2 bridge)

The bridge is generic over application types; the universe below captures the
shapes in the spec's lowering table — fixed-width integers, bool, char,
strings, byte strings, unit, newtype structs, tuples, sequences, structs and
the enum variant shapes — and the drivers below perform, per shape, exactly
the calls the derived `Serialize`/`Deserialize` impls make on the rlp-rs
(de)serializer.  Variant names are carried as their UTF-8 bytes. -/

mutual

inductive Ty where
  | uintT (w : Nat)
  | intT (w : Nat)
  | boolT
  | charT
  | strT
  | bytesT
  | unitT
  | newtypeT (t : Ty)
  | tupleT (ts : List Ty)
  | seqT (t : Ty)
  | structT (ts : List Ty)
  | enumT (vs : List (List Nat × VariantTy))

inductive VariantTy where
  | unitV
  | newtypeV (t : Ty)
  | tupleV (ts : List Ty)
  | structV (ts : List Ty)

end

mutual

inductive Val where
  | vNat (n : Nat)
  | vInt (i : Int)
  | vBool (b : Bool)
  | vChar (c : Nat)
  | vStr (bytes : List Nat)
  | vBytes (bytes : List Nat)
  | vUnit
  | vNewtype (v : Val)
  | vTuple (vs : List Val)
  | vSeq (vs : List Val)
  | vStruct (vs : List Val)
  | vEnum (name : List Nat) (payload : VariantVal)

inductive VariantVal where
  | unitP
  | newtypeP (v : Val)
  | tupleP (vs : List Val)
  | structP (vs : List Val)

end

mutual

/-- What the derived `Serialize` impl of each supported shape does, driving
the `Serializer` from `src/rlp/src/ser.rs` (a value/type mismatch, which
cannot occur for a Rust value of the type, leaves the state unchanged). -/
def serTy : Ty → Val → SerState → SerState
  | .uintT w, .vNat n, s => s.serialize_uint w n
  | .intT w, .vInt i, s => s.serialize_sint w i
  | .boolT, .vBool b, s => s.serialize_bool b
  | .charT, .vChar c, s => s.serialize_char c
  | .strT, .vStr bs, s => s.serialize_bytes bs
  | .bytesT, .vBytes bs, s => s.serialize_bytes bs
  | .unitT, .vUnit, s => s.serialize_unit
  | .newtypeT t, .vNewtype v, s => serTy t v s
  | .tupleT ts, .vTuple vs, s => serFields ts vs s
  | .seqT t, .vSeq vs, s => (serSeqElems t vs s.newList).endList
  | .structT ts, .vStruct vs, s => (serFields ts vs s.newList).endList
  | .enumT variants, .vEnum name payload, s =>
      let s1 := if name.isEmpty then s else s.serialize_bytes name
      match variants.find? (fun p => p.1 == name) with
      | some (_, shape) => serShape shape payload s1
      | none => s1
  | _, _, s => s

/-- Struct/tuple fields serialized in order at the current nesting level. -/
def serFields : List Ty → List Val → SerState → SerState
  | _, [], s => s
  | [], _ :: _, s => s
  | t :: ts, v :: vs, s => serFields ts vs (serTy t v s)

/-- Sequence elements serialized in order. -/
def serSeqElems : Ty → List Val → SerState → SerState
  | _, [], s => s
  | t, v :: vs, s => serSeqElems t vs (serTy t v s)

/-- The `serialize_*_variant` calls after the variant name: a unit variant
emits nothing more, a newtype variant its value, a tuple variant a list of
its fields, and a struct variant its fields flat followed by the unbalanced
`end_list` of `SerializeStructVariant::end`. -/
def serShape : VariantTy → VariantVal → SerState → SerState
  | .unitV, .unitP, s => s
  | .newtypeV t, .newtypeP v, s => serTy t v s
  | .tupleV ts, .tupleP vs, s => (serFields ts vs s.newList).endList
  | .structV ts, .structP vs, s => (serFields ts vs s).endList
  | _, _, s => s

end

mutual

/-- The tree values the serializer pushes at the current nesting level for a
value of the given shape (the pure description of `serTy`). -/
def itemsOf : Ty → Val → List RecursiveBytes
  | .uintT w, .vNat n => [.Bytes ((beDigits w n).dropWhile (· == 0))]
  | .intT w, .vInt i =>
      [.Bytes ((beDigits w ((i % ((2 : Int) ^ (8 * w))).toNat)).dropWhile (· == 0))]
  | .boolT, .vBool b => [.Bytes ((if b then [1] else [0]).dropWhile (· == 0))]
  | .charT, .vChar c => [.Bytes (([c % 256]).dropWhile (· == 0))]
  | .strT, .vStr bs => [if bs.isEmpty then .EmptyList else .Bytes bs]
  | .bytesT, .vBytes bs => [if bs.isEmpty then .EmptyList else .Bytes bs]
  | .unitT, .vUnit => [.EmptyList]
  | .newtypeT t, .vNewtype v => itemsOf t v
  | .tupleT ts, .vTuple vs => itemsFields ts vs
  | .seqT t, .vSeq vs => [.Nested (itemsSeq t vs)]
  | .structT ts, .vStruct vs => [.Nested (itemsFields ts vs)]
  | .enumT variants, .vEnum name payload =>
      (if name.isEmpty then [] else [.Bytes name]) ++
        (match variants.find? (fun p => p.1 == name) with
        | some (_, shape) => itemsShape shape payload
        | none => [])
  | _, _ => []

def itemsFields : List Ty → List Val → List RecursiveBytes
  | _, [] => []
  | [], _ :: _ => []
  | t :: ts, v :: vs => itemsOf t v ++ itemsFields ts vs

def itemsSeq : Ty → List Val → List RecursiveBytes
  | _, [] => []
  | t, v :: vs => itemsOf t v ++ itemsSeq t vs

def itemsShape : VariantTy → VariantVal → List RecursiveBytes
  | .unitV, .unitP => []
  | .newtypeV t, .newtypeP v => itemsOf t v
  | .tupleV ts, .tupleP vs => [.Nested (itemsFields ts vs)]
  | .structV ts, .structP vs => itemsFields ts vs
  | _, _ => []

end

mutual

/-- `v` is a Rust value of shape `t`: the side conditions are exactly those
every Rust value of the corresponding type satisfies (integer ranges,
UTF-8 strings, `usize`-bounded lengths); for `char` the amended claim keeps
only code points up to `0xFF`. -/
def hasTy : Val → Ty → Bool
  | .vNat n, .uintT w => decide (n < 2 ^ (8 * w))
  | .vInt i, .intT w =>
      decide (1 ≤ w) && decide (-(2 ^ (8 * w - 1)) ≤ i) && decide (i < 2 ^ (8 * w - 1))
  | .vBool _, .boolT => true
  | .vChar c, .charT => decide (c < 256)
  | .vStr bs, .strT => validUtf8 bs && decide (bs.length ≤ usizeMax)
  | .vBytes bs, .bytesT => decide (bs.length ≤ usizeMax)
  | .vUnit, .unitT => true
  | .vNewtype v, .newtypeT t => hasTy v t
  | .vTuple vs, .tupleT ts => hasTyFields vs ts
  | .vSeq vs, .seqT t => hasTyAll vs t
  | .vStruct vs, .structT ts => hasTyFields vs ts
  | .vEnum name pv, .enumT variants =>
      match variants.find? (fun p => p.1 == name) with
      | some (_, shape) => hasTyShape pv shape
      | none => false
  | _, _ => false

def hasTyFields : List Val → List Ty → Bool
  | [], [] => true
  | v :: vs, t :: ts => hasTy v t && hasTyFields vs ts
  | _, _ => false

def hasTyAll : List Val → Ty → Bool
  | [], _ => true
  | v :: vs, t => hasTy v t && hasTyAll vs t

def hasTyShape : VariantVal → VariantTy → Bool
  | .unitP, .unitV => true
  | .newtypeP v, .newtypeV t => hasTy v t
  | .tupleP vs, .tupleV ts => hasTyFields vs ts
  | .structP vs, .structV ts => hasTyFields vs ts
  | _, _ => false

end

/-- A type whose serialization is exactly one tree value at the current
level — what a field of a struct or an element of a sequence must be for the
bridge's one-value-per-slot decoding to see the same layout. -/
def singleItem : Ty → Bool
  | .uintT _ => true
  | .intT _ => true
  | .boolT => true
  | .charT => true
  | .strT => true
  | .bytesT => true
  | .unitT => true
  | .newtypeT t => singleItem t
  | .tupleT _ => false
  | .seqT _ => true
  | .structT _ => true
  | .enumT _ => false

/-- A type that serializes to a single byte-string-shaped tree value, which
is what `newtype_variant_seed`'s `parse_bytes` re-framing requires. -/
def bytesLike : Ty → Bool
  | .uintT _ => true
  | .intT _ => true
  | .boolT => true
  | .charT => true
  | .strT => true
  | .bytesT => true
  | .unitT => true
  | .newtypeT t => bytesLike t
  | _ => false

mutual

/-- The amended supported universe: fixed-size tuples and enum struct
variants are excluded (their serialized layout cannot be decoded back), the
fields of structs and elements of sequences must serialize to a single tree
value each, and a newtype variant's payload must be byte-string shaped. -/
def tyOk : Ty → Bool
  | .uintT _ => true
  | .intT w => decide (1 ≤ w)
  | .boolT => true
  | .charT => true
  | .strT => true
  | .bytesT => true
  | .unitT => true
  | .newtypeT t => tyOk t
  | .tupleT _ => false
  | .seqT t => tyOk t && singleItem t
  | .structT ts => tyOkFields ts
  | .enumT variants => variantsOk variants

def tyOkFields : List Ty → Bool
  | [] => true
  | t :: ts => tyOk t && singleItem t && tyOkFields ts

def variantsOk : List (List Nat × VariantTy) → Bool
  | [] => true
  | (name, shape) :: rest =>
      !name.isEmpty && validUtf8 name && decide (name.length ≤ usizeMax) &&
        shapeOk shape && variantsOk rest

def shapeOk : VariantTy → Bool
  | .unitV => true
  | .newtypeV t => tyOk t && bytesLike t
  | .tupleV ts => tyOkFields ts
  | .structV _ => false

end

mutual

/-- What the derived `Deserialize` impl of each supported shape does,
driving the cursor over the decoded `Rlp` deque (`src/rlp/src/de.rs`). -/
def deTy : Ty → Rlp → Except RlpError (Val × Rlp)
  | .uintT w, rlp => (parse_uint w rlp).map (fun p => (.vNat p.1, p.2))
  | .intT w, rlp => (parse_sint w rlp).map (fun p => (.vInt p.1, p.2))
  | .boolT, rlp => (parse_bool rlp).map (fun p => (.vBool p.1, p.2))
  | .charT, rlp => (parse_char rlp).map (fun p => (.vChar p.1, p.2))
  | .strT, rlp => (parse_string rlp).map (fun p => (.vStr p.1, p.2))
  | .bytesT, rlp => (parse_bytes rlp).map (fun p => (.vBytes p.1, p.2))
  | .unitT, rlp => (need_bytes_len 0 false rlp).map (fun p => (.vUnit, p.2))
  | .newtypeT t, rlp => (deTy t rlp).map (fun p => (.vNewtype p.1, p.2))
  | .tupleT ts, rlp => do
      -- deserialize_tuple → deserialize_seq: the current value must be a list
      let (recs, rest) ← need_nested rlp
      let (vs, leftover) ← deFields ts recs
      match leftover with
      | [] => .ok (.vTuple vs, rest)
      | _ :: _ => .error .InvalidLength
  | .seqT t, rlp => do
      -- the Vec visitor drains the sublist, so the final emptiness check passes
      let (recs, rest) ← need_nested rlp
      let vs ← deSeqElems t recs
      .ok (.vSeq vs, rest)
  | .structT ts, rlp => do
      let (recs, rest) ← need_nested rlp
      let (vs, leftover) ← deFields ts recs
      match leftover with
      | [] => .ok (.vStruct vs, rest)
      | _ :: _ => .error .InvalidLength
  | .enumT variants, rlp =>
      -- visit_enum: the identifier is decoded first (deserialize_identifier)
      match rlp with
      | [] => .error .MissingBytes
      | .Bytes nameBytes :: rest => do
          let (name, _) ← parse_string [RecursiveBytes.Bytes nameBytes]
          match hfind : variants.find? (fun p => p.1 == name) with
          | some (nm, shape) => (deShape shape rest).map (fun p => (.vEnum name p.1, p.2))
          | none => .error (.Message "unknown variant")
      | .EmptyList :: _ =>
          -- the Rust match in deserialize_identifier has no arm for the
          -- EmptyList sentinel (it cannot appear in unpacked input)
          .error (.Message "unreachable: EmptyList identifier")
      | .Nested recs :: _ => do
          -- deserialize_identifier replaces the whole deque by the sublist
          let (name, r2) ← parse_string recs
          match hfind : variants.find? (fun p => p.1 == name) with
          | some (nm, shape) => (deShape shape r2).map (fun p => (.vEnum name p.1, p.2))
          | none => .error (.Message "unknown variant")
termination_by t rlp => (sizeOf t, 0)
decreasing_by
  all_goals simp_wf
  all_goals first
  | exact Prod.Lex.left _ _ (by omega)
  | (have hmem := List.sizeOf_lt_of_mem (List.mem_of_find?_eq_some hfind)
     simp at hmem
     exact Prod.Lex.left _ _ (by omega))

/-- Field-by-field decoding through `SeqAccess`: each field is handed one
tree value as a fresh one-value deque (a leftover inside it is dropped). -/
def deFields : List Ty → List RecursiveBytes → Except RlpError (List Val × List RecursiveBytes)
  | [], recs => .ok ([], recs)
  | _ :: _, [] => .error (.Message "invalid length")
  | t :: ts, rec :: recs => do
      let (v, _) ← deTy t [rec]
      let (vs, leftover) ← deFields ts recs
      .ok (v :: vs, leftover)
termination_by ts recs => (sizeOf ts, 0)

/-- The `Vec` visitor: keep reading elements until the sublist is empty. -/
def deSeqElems : Ty → List RecursiveBytes → Except RlpError (List Val)
  | _, [] => .ok []
  | t, rec :: recs => do
      let (v, _) ← deTy t [rec]
      let vs ← deSeqElems t recs
      .ok (v :: vs)
termination_by t recs => (sizeOf t, recs.length + 1)

/-- `VariantAccess` after the identifier: unit consumes nothing, a newtype
variant re-frames the next byte string, tuple and struct variants read a
sublist of fields. -/
def deShape : VariantTy → Rlp → Except RlpError (VariantVal × Rlp)
  | .unitV, rlp => .ok (.unitP, rlp)
  | .newtypeV t, rlp => do
      let (bs, rest) ← parse_bytes rlp
      let (v, _) ← deTy t [RecursiveBytes.Bytes bs]
      .ok (.newtypeP v, rest)
  | .tupleV ts, rlp => do
      let (recs, rest) ← need_nested rlp
      let (vs, leftover) ← deFields ts recs
      match leftover with
      | [] => .ok (.tupleP vs, rest)
      | _ :: _ => .error .InvalidLength
  | .structV ts, rlp => do
      let (recs, rest) ← need_nested rlp
      let (vs, leftover) ← deFields ts recs
      match leftover with
      | [] => .ok (.structP vs, rest)
      | _ :: _ => .error .InvalidLength
termination_by sh rlp => (sizeOf sh, 0)

end

/-! ### `to_bytes` / `from_bytes` for the embedded universe -/

/-- `rlp_rs::to_bytes` for a value of the given shape: run the serializer
from the empty state (`Serializer::default`), take its output deque
(`into_rlp`) and pack it (`pack_rlp`). -/
def to_bytes (t : Ty) (v : Val) : Except RlpError (List Nat) :=
  pack_rlp (serTy t v SerState.empty).output

/-- `rlp_rs::from_bytes` for the given shape: unpack the wire bytes and
drive the deserializer; no leftover check is performed. -/
def from_bytes (t : Ty) (bytes : List Nat) : Except RlpError Val := do
  let rlp ← unpack_rlp bytes
  let (v, _) ← deTy t rlp
  .ok v

/-- Push a list of finished values one by one. -/
def SerState.pushAll (s : SerState) (items : List RecursiveBytes) : SerState :=
  items.foldl SerState.pushItem s

theorem pushAll_nil (s : SerState) : s.pushAll [] = s := rfl

theorem pushAll_cons (s : SerState) (r : RecursiveBytes) (items : List RecursiveBytes) :
    s.pushAll (r :: items) = (s.pushItem r).pushAll items := rfl

theorem pushAll_append (s : SerState) (a b : List RecursiveBytes) :
    s.pushAll (a ++ b) = (s.pushAll a).pushAll b := by
  simp [SerState.pushAll, List.foldl_append]

theorem pushAll_stack_cons (items : List RecursiveBytes) :
    ∀ (out top : List RecursiveBytes) (rest : List (List RecursiveBytes)),
    (SerState.mk out (top :: rest)).pushAll items = SerState.mk out ((top ++ items) :: rest) := by
  induction items with
  | nil => intro out top rest; simp [SerState.pushAll]
  | cons r rs ih =>
    intro out top rest
    rw [pushAll_cons]
    show ((SerState.mk out (top :: rest)).pushItem r).pushAll rs = _
    simp only [SerState.pushItem]
    rw [ih]
    simp

theorem pushAll_stack_nil (items : List RecursiveBytes) :
    ∀ out : List RecursiveBytes,
    (SerState.mk out []).pushAll items = SerState.mk (out ++ items) [] := by
  induction items with
  | nil => intro out; simp [SerState.pushAll]
  | cons r rs ih =>
    intro out
    rw [pushAll_cons]
    show ((SerState.mk out []).pushItem r).pushAll rs = _
    simp only [SerState.pushItem]
    rw [ih]
    simp

/-- Opening a list, pushing values into it and closing it is the same as
pushing the finished `Nested` node. -/
theorem newList_pushAll_endList (s : SerState) (items : List RecursiveBytes) :
    ((s.newList).pushAll items).endList = s.pushItem (.Nested items) := by
  obtain ⟨out, stack⟩ := s
  show ((SerState.mk out ([] :: stack)).pushAll items).endList = _
  rw [pushAll_stack_cons]
  simp [SerState.endList, SerState.pushItem]

/-- Every variant of a well-formed variant table has a nonempty UTF-8 name of
`usize` length and a supported payload shape. -/
theorem variantsOk_mem (variants : List (List Nat × VariantTy)) (name : List Nat)
    (shape : VariantTy) (hok : variantsOk variants = true)
    (hmem : (name, shape) ∈ variants) :
    name.isEmpty = false ∧ validUtf8 name = true ∧ name.length ≤ usizeMax ∧
      shapeOk shape = true := by
  induction variants with
  | nil => cases hmem
  | cons p rest ih =>
    obtain ⟨nm, sh⟩ := p
    rw [variantsOk] at hok
    simp only [Bool.and_eq_true, Bool.not_eq_true', decide_eq_true_eq] at hok
    obtain ⟨⟨⟨⟨ha, hb⟩, hc⟩, hd⟩, he⟩ := hok
    rcases List.mem_cons.mp hmem with heq | hmem2
    · rw [Prod.mk.injEq] at heq
      obtain ⟨h1, h2⟩ := heq
      subst h1; subst h2
      exact ⟨ha, hb, hc, hd⟩
    · exact ih he hmem2

/-- `find?` with the name-equality predicate returns a table entry whose name
is the one searched for. -/
theorem find?_variant (variants : List (List Nat × VariantTy)) (name nm : List Nat)
    (shape : VariantTy)
    (hfind : variants.find? (fun p => p.1 == name) = some (nm, shape)) :
    nm = name ∧ (nm, shape) ∈ variants := by
  have hmem := List.mem_of_find?_eq_some hfind
  have hpred := List.find?_some hfind
  simp only [beq_iff_eq] at hpred
  exact ⟨hpred, hmem⟩

example : hasTy (.vNat 5) (.uintT 1) = true := by decide
example : to_bytes (.structT [.uintT 1]) (.vStruct [.vNat 5]) = .ok [0xc1, 5] := by decide

/-- The serializer drivers only ever append the pure item description to the
innermost open list: `serTy` is `pushAll` of `itemsOf` (and likewise for
fields, sequence elements and variant payloads). -/
theorem ser_appends_all :
    ∀ n : Nat,
      (∀ (t : Ty) (v : Val) (s : SerState), sizeOf v ≤ n → hasTy v t = true → tyOk t = true →
        serTy t v s = s.pushAll (itemsOf t v)) ∧
      (∀ (ts : List Ty) (vs : List Val) (s : SerState), sizeOf vs ≤ n →
        hasTyFields vs ts = true → tyOkFields ts = true →
        serFields ts vs s = s.pushAll (itemsFields ts vs)) ∧
      (∀ (t : Ty) (vs : List Val) (s : SerState), sizeOf vs ≤ n →
        hasTyAll vs t = true → tyOk t = true →
        serSeqElems t vs s = s.pushAll (itemsSeq t vs)) ∧
      (∀ (sh : VariantTy) (pv : VariantVal) (s : SerState), sizeOf pv ≤ n →
        hasTyShape pv sh = true → shapeOk sh = true →
        serShape sh pv s = s.pushAll (itemsShape sh pv)) := by
  intro n
  induction n using Nat.strong_induction_on with
  | _ n ih =>
    refine ⟨?_, ?_, ?_, ?_⟩
    · intro t v s hsz hty hok
      cases t <;> cases v
      case newtypeT.vNewtype t2 v2 =>
        have hs2 : sizeOf (Val.vNewtype v2) = 1 + sizeOf v2 := by simp
        have hlt : sizeOf v2 < n := by omega
        simp only [serTy, itemsOf]
        exact (ih _ hlt).1 t2 v2 s le_rfl (by simpa [hasTy] using hty)
          (by simpa [tyOk] using hok)
      case tupleT.vTuple ts vs => simp [tyOk] at hok
      case seqT.vSeq t2 vs =>
        have hs2 : sizeOf (Val.vSeq vs) = 1 + sizeOf vs := by simp
        have hlt : sizeOf vs < n := by omega
        have hty2 : hasTyAll vs t2 = true := by simpa [hasTy] using hty
        have hok2 : tyOk t2 = true := by
          simp only [tyOk, Bool.and_eq_true] at hok; exact hok.1
        simp only [serTy, itemsOf]
        rw [(ih _ hlt).2.2.1 t2 vs s.newList le_rfl hty2 hok2]
        rw [newList_pushAll_endList]
        simp [pushAll_cons, pushAll_nil]
      case structT.vStruct ts vs =>
        have hs2 : sizeOf (Val.vStruct vs) = 1 + sizeOf vs := by simp
        have hlt : sizeOf vs < n := by omega
        have hty2 : hasTyFields vs ts = true := by simpa [hasTy] using hty
        have hok2 : tyOkFields ts = true := by simpa [tyOk] using hok
        simp only [serTy, itemsOf]
        rw [(ih _ hlt).2.1 ts vs s.newList le_rfl hty2 hok2]
        rw [newList_pushAll_endList]
        simp [pushAll_cons, pushAll_nil]
      case enumT.vEnum variants name pv =>
        have hs2 : sizeOf (Val.vEnum name pv) = 1 + sizeOf name + sizeOf pv := by simp
        have hlt : sizeOf pv < n := by omega
        simp only [hasTy] at hty
        cases hfind : variants.find? (fun p => p.1 == name) with
        | none => rw [hfind] at hty; simp at hty
        | some pr =>
          obtain ⟨nm, sh⟩ := pr
          rw [hfind] at hty
          obtain ⟨hnm, hmem⟩ := find?_variant variants name nm sh hfind
          subst hnm
          obtain ⟨hne, hutf, hlen, hshok⟩ :=
            variantsOk_mem variants nm sh (by simpa [tyOk] using hok) hmem
          simp only [serTy, itemsOf, hfind, hne, Bool.false_eq_true, if_false]
          rw [(ih _ hlt).2.2.2 sh pv _ le_rfl hty hshok]
          simp [SerState.serialize_bytes, SerState.push_bytes, hne, pushAll_cons,
            List.isEmpty_eq_true]
      all_goals
        simp [serTy, itemsOf, pushAll_cons, pushAll_nil, SerState.serialize_uint,
          SerState.serialize_sint, SerState.serialize_bool, SerState.serialize_char,
          SerState.serialize_bytes, SerState.serialize_unit, SerState.serialize_array,
          SerState.push_bytes]
    · intro ts vs s hsz htf hokf
      cases vs with
      | nil => simp [serFields, itemsFields, pushAll_nil]
      | cons v vs2 =>
        cases ts with
        | nil => simp [hasTyFields] at htf
        | cons t ts2 =>
          simp only [hasTyFields, Bool.and_eq_true] at htf
          simp only [tyOkFields, Bool.and_eq_true] at hokf
          obtain ⟨hty1, htyr⟩ := htf
          obtain ⟨⟨hok1, hsi⟩, hokr⟩ := hokf
          have hs2 : sizeOf (v :: vs2) = 1 + sizeOf v + sizeOf vs2 := by simp
          have hsv : sizeOf v < n := by omega
          have hsvs : sizeOf vs2 < n := by omega
          simp only [serFields, itemsFields]
          rw [(ih _ hsv).1 t v s le_rfl hty1 hok1]
          rw [(ih _ hsvs).2.1 ts2 vs2 _ le_rfl htyr hokr]
          rw [pushAll_append]
    · intro t vs s hsz hta hok
      cases vs with
      | nil => simp [serSeqElems, itemsSeq, pushAll_nil]
      | cons v vs2 =>
        simp only [hasTyAll, Bool.and_eq_true] at hta
        obtain ⟨hty1, htar⟩ := hta
        have hs2 : sizeOf (v :: vs2) = 1 + sizeOf v + sizeOf vs2 := by simp
        have hsv : sizeOf v < n := by omega
        have hsvs : sizeOf vs2 < n := by omega
        simp only [serSeqElems, itemsSeq]
        rw [(ih _ hsv).1 t v s le_rfl hty1 hok]
        rw [(ih _ hsvs).2.2.1 t vs2 _ le_rfl htar hok]
        rw [pushAll_append]
    · intro sh pv s hsz hts hsok
      cases sh <;> cases pv
      case newtypeV.newtypeP t2 v2 =>
        simp only [hasTyShape] at hts
        simp only [shapeOk, Bool.and_eq_true] at hsok
        have hs2 : sizeOf (VariantVal.newtypeP v2) = 1 + sizeOf v2 := by simp
        have hlt : sizeOf v2 < n := by omega
        simp only [serShape, itemsShape]
        exact (ih _ hlt).1 t2 v2 s le_rfl hts hsok.1
      case tupleV.tupleP ts vs =>
        simp only [hasTyShape] at hts
        simp only [shapeOk] at hsok
        have hs2 : sizeOf (VariantVal.tupleP vs) = 1 + sizeOf vs := by simp
        have hlt : sizeOf vs < n := by omega
        simp only [serShape, itemsShape]
        rw [(ih _ hlt).2.1 ts vs s.newList le_rfl hts hsok]
        rw [newList_pushAll_endList]
        simp [pushAll_cons, pushAll_nil]
      case structV.structP ts vs => simp [shapeOk] at hsok
      all_goals simp [serShape, itemsShape, pushAll_nil]

theorem normRec_bytes (b : List Nat) : normRec (.Bytes b) = .Bytes b := rfl
theorem normRec_empty : normRec .EmptyList = .Bytes [] := rfl
theorem normRec_nested (recs : List RecursiveBytes) :
    normRec (.Nested recs) = .Nested (normList recs) := rfl

theorem normList_append (a b : List RecursiveBytes) :
    normList (a ++ b) = normList a ++ normList b := by
  induction a with
  | nil => rfl
  | cons r rs ih =>
    rw [List.cons_append, normList_cons, normList_cons, ih, List.cons_append]

/-- A `singleItem` type serializes to exactly one tree value. -/
theorem singleItem_items :
    ∀ n : Nat, ∀ (t : Ty) (v : Val), sizeOf t ≤ n →
      singleItem t = true → hasTy v t = true → ∃ it, itemsOf t v = [it] := by
  intro n
  induction n using Nat.strong_induction_on with
  | _ n ih =>
    intro t v hsz hsi hty
    cases t <;> cases v
    case newtypeT.vNewtype t2 v2 =>
      have hs2 : sizeOf (Ty.newtypeT t2) = 1 + sizeOf t2 := by simp
      have hlt : sizeOf t2 < n := by omega
      simp only [itemsOf]
      exact ih _ hlt t2 v2 le_rfl (by simpa [singleItem] using hsi)
        (by simpa [hasTy] using hty)
    case tupleT.vTuple ts vs => simp [singleItem] at hsi
    case enumT.vEnum variants name pv => simp [singleItem] at hsi
    all_goals first
    | exact ⟨_, rfl⟩
    | (simp [hasTy] at hty; done)

/-- A `bytesLike` type serializes to one byte-string tree value (after the
wire normalisation that turns `EmptyList` into the empty byte string). -/
theorem bytesLike_bytes :
    ∀ n : Nat, ∀ (t : Ty) (v : Val), sizeOf t ≤ n →
      bytesLike t = true → hasTy v t = true →
      ∃ bs, normList (itemsOf t v) = [.Bytes bs] := by
  intro n
  induction n using Nat.strong_induction_on with
  | _ n ih =>
    intro t v hsz hbl hty
    cases t <;> cases v
    case newtypeT.vNewtype t2 v2 =>
      have hs2 : sizeOf (Ty.newtypeT t2) = 1 + sizeOf t2 := by simp
      have hlt : sizeOf t2 < n := by omega
      simp only [itemsOf]
      exact ih _ hlt t2 v2 le_rfl (by simpa [bytesLike] using hbl)
        (by simpa [hasTy] using hty)
    case strT.vStr bs =>
      cases bs with
      | nil => exact ⟨[], by simp [itemsOf, normList_cons, normList_nil, normRec]⟩
      | cons x xs =>
        exact ⟨x :: xs, by simp [itemsOf, normList_cons, normList_nil, normRec]⟩
    case bytesT.vBytes bs =>
      cases bs with
      | nil => exact ⟨[], by simp [itemsOf, normList_cons, normList_nil, normRec]⟩
      | cons x xs =>
        exact ⟨x :: xs, by simp [itemsOf, normList_cons, normList_nil, normRec]⟩
    all_goals first
    | exact ⟨_, rfl⟩
    | (simp [bytesLike] at hbl; done)
    | (simp [hasTy] at hty; done)

/-- Decoding inverts serialization on the supported universe: the
deserializer driver consumes exactly the (wire-normalised) items the
serializer emitted and reconstructs the value, leaving the rest of the
deque untouched. -/
theorem de_items_all :
    ∀ n : Nat,
      (∀ (t : Ty) (v : Val) (rest : Rlp), sizeOf v ≤ n → hasTy v t = true → tyOk t = true →
        deTy t (normList (itemsOf t v) ++ rest) = .ok (v, rest)) ∧
      (∀ (ts : List Ty) (vs : List Val), sizeOf vs ≤ n →
        hasTyFields vs ts = true → tyOkFields ts = true →
        deFields ts (normList (itemsFields ts vs)) = .ok (vs, [])) ∧
      (∀ (t : Ty) (vs : List Val), sizeOf vs ≤ n →
        hasTyAll vs t = true → tyOk t = true → singleItem t = true →
        deSeqElems t (normList (itemsSeq t vs)) = .ok vs) ∧
      (∀ (sh : VariantTy) (pv : VariantVal) (rest : Rlp), sizeOf pv ≤ n →
        hasTyShape pv sh = true → shapeOk sh = true →
        deShape sh (normList (itemsShape sh pv) ++ rest) = .ok (pv, rest)) := by
  intro n
  induction n using Nat.strong_induction_on with
  | _ n ih =>
    refine ⟨?_, ?_, ?_, ?_⟩
    · intro t v rest hsz hty hok
      cases t <;> cases v
      case uintT.vNat w nn =>
        have hn : nn < 2 ^ (8 * w) := by simpa [hasTy] using hty
        simp only [itemsOf, normList_cons, normList_nil, normRec_bytes, List.cons_append,
          List.nil_append, deTy]
        rw [parse_uint_strip w nn hn rest]
        rfl
      case intT.vInt w i =>
        obtain ⟨⟨hw, hlo⟩, hhi⟩ :
            (1 ≤ w ∧ -(2 ^ (8 * w - 1) : Int) ≤ i) ∧ i < 2 ^ (8 * w - 1) := by
          simpa [hasTy] using hty
        simp only [itemsOf, normList_cons, normList_nil, normRec_bytes, List.cons_append,
          List.nil_append, deTy]
        rw [parse_sint_strip w hw i hlo hhi rest]
        rfl
      case boolT.vBool b =>
        cases b <;>
          simp [itemsOf, normList_cons, normList_nil, normRec_bytes, deTy, parse_bool,
            need_bytes_len, need_bytes, bind, Except.bind, Except.map]
      case charT.vChar c =>
        have hc : c < 256 := by simpa [hasTy] using hty
        have hmod : c % 256 = c := Nat.mod_eq_of_lt hc
        by_cases h0 : c = 0
        · subst h0
          simp [itemsOf, normList_cons, normList_nil, normRec_bytes, deTy, parse_char,
            need_bytes_len, need_bytes, bind, Except.bind, Except.map]
        · have hdrop : ([c % 256].dropWhile (· == 0)) = [c] := by
            rw [hmod]
            rw [List.dropWhile_cons_of_neg (by simpa using h0)]
          simp [itemsOf, hdrop, normList_cons, normList_nil, normRec_bytes, deTy, parse_char,
            need_bytes_len, need_bytes, bind, Except.bind, Except.map]
      case strT.vStr bs =>
        obtain ⟨hutf, hlen⟩ : validUtf8 bs = true ∧ bs.length ≤ usizeMax := by
          simpa [hasTy] using hty
        have hnorm : normList (itemsOf .strT (.vStr bs)) = [.Bytes bs] := by
          cases bs <;> simp [itemsOf, normList_cons, normList_nil, normRec_bytes, normRec_empty]
        rw [hnorm]
        simp [deTy, parse_string, need_bytes, bind, Except.bind, Except.map, hutf]
      case bytesT.vBytes bs =>
        have hnorm : normList (itemsOf .bytesT (.vBytes bs)) = [.Bytes bs] := by
          cases bs <;> simp [itemsOf, normList_cons, normList_nil, normRec_bytes, normRec_empty]
        rw [hnorm]
        simp [deTy, parse_bytes, need_bytes, Except.map]
      case unitT.vUnit =>
        simp [itemsOf, normList_cons, normList_nil, normRec_empty, deTy, need_bytes_len,
          need_bytes, bind, Except.bind, Except.map]
      case newtypeT.vNewtype t2 v2 =>
        have hs2 : sizeOf (Val.vNewtype v2) = 1 + sizeOf v2 := by simp
        have hlt : sizeOf v2 < n := by omega
        simp only [itemsOf, deTy]
        rw [(ih _ hlt).1 t2 v2 rest le_rfl (by simpa [hasTy] using hty)
          (by simpa [tyOk] using hok)]
        rfl
      case tupleT.vTuple ts vs => simp [tyOk] at hok
      case seqT.vSeq t2 vs =>
        have hs2 : sizeOf (Val.vSeq vs) = 1 + sizeOf vs := by simp
        have hlt : sizeOf vs < n := by omega
        have hty2 : hasTyAll vs t2 = true := by simpa [hasTy] using hty
        obtain ⟨hok2, hsi2⟩ : tyOk t2 = true ∧ singleItem t2 = true := by
          simpa [tyOk] using hok
        simp only [itemsOf, normList_cons, normList_nil, normRec_nested, List.cons_append,
          List.nil_append, deTy, need_nested, bind, Except.bind]
        rw [(ih _ hlt).2.2.1 t2 vs le_rfl hty2 hok2 hsi2]
      case structT.vStruct ts vs =>
        have hs2 : sizeOf (Val.vStruct vs) = 1 + sizeOf vs := by simp
        have hlt : sizeOf vs < n := by omega
        have hty2 : hasTyFields vs ts = true := by simpa [hasTy] using hty
        have hok2 : tyOkFields ts = true := by simpa [tyOk] using hok
        simp only [itemsOf, normList_cons, normList_nil, normRec_nested, List.cons_append,
          List.nil_append, deTy, need_nested, bind, Except.bind]
        rw [(ih _ hlt).2.1 ts vs le_rfl hty2 hok2]
      case enumT.vEnum variants name pv =>
        have hs2 : sizeOf (Val.vEnum name pv) = 1 + sizeOf name + sizeOf pv := by simp
        have hlt : sizeOf pv < n := by omega
        simp only [hasTy] at hty
        cases hfind : variants.find? (fun p => p.1 == name) with
        | none => rw [hfind] at hty; simp at hty
        | some pr =>
          obtain ⟨nm, sh⟩ := pr
          rw [hfind] at hty
          obtain ⟨hnm, hmem⟩ := find?_variant variants name nm sh hfind
          subst hnm
          obtain ⟨hne, hutf, hlen, hshok⟩ :=
            variantsOk_mem variants nm sh (by simpa [tyOk] using hok) hmem
          simp only [itemsOf, hfind, hne, Bool.false_eq_true, if_false]
          rw [normList_append]
          simp only [normList_cons, normList_nil, normRec_bytes, List.cons_append,
            List.nil_append, List.append_assoc]
          simp only [deTy]
          rw [show parse_string [RecursiveBytes.Bytes nm] = .ok (nm, []) from by
            simp [parse_string, need_bytes, bind, Except.bind, hutf]]
          simp only [bind, Except.bind]
          split
          case _ nm2 sh2 heq =>
            rw [hfind] at heq
            injection heq with heq2
            rw [Prod.mk.injEq] at heq2
            obtain ⟨h1, h2⟩ := heq2
            subst h1
            subst h2
            rw [(ih _ hlt).2.2.2 sh pv rest le_rfl hty hshok]
            rfl
          case _ heq => rw [hfind] at heq; cases heq
      all_goals (simp [hasTy] at hty; done)
    · intro ts vs hsz htf hokf
      cases vs with
      | nil =>
        cases ts with
        | nil => simp [itemsFields, normList_nil, deFields]
        | cons t ts2 => simp [hasTyFields] at htf
      | cons v vs2 =>
        cases ts with
        | nil => simp [hasTyFields] at htf
        | cons t ts2 =>
          simp only [hasTyFields, Bool.and_eq_true] at htf
          simp only [tyOkFields, Bool.and_eq_true] at hokf
          obtain ⟨hty1, htyr⟩ := htf
          obtain ⟨⟨hok1, hsi⟩, hokr⟩ := hokf
          have hs2 : sizeOf (v :: vs2) = 1 + sizeOf v + sizeOf vs2 := by simp
          have hsv : sizeOf v < n := by omega
          have hsvs : sizeOf vs2 < n := by omega
          obtain ⟨it, hit⟩ := singleItem_items (sizeOf t) t v le_rfl hsi hty1
          have hone : deTy t [normRec it] = .ok (v, []) := by
            have h := (ih _ hsv).1 t v [] le_rfl hty1 hok1
            rw [hit] at h
            simpa [normList_cons, normList_nil] using h
          simp only [itemsFields]
          rw [normList_append, hit]
          simp only [normList_cons, normList_nil, List.cons_append, List.nil_append]
          simp only [deFields, bind, Except.bind]
          rw [hone]
          rw [(ih _ hsvs).2.1 ts2 vs2 le_rfl htyr hokr]
    · intro t vs hsz hta hok hsi
      cases vs with
      | nil => simp [itemsSeq, normList_nil, deSeqElems]
      | cons v vs2 =>
        simp only [hasTyAll, Bool.and_eq_true] at hta
        obtain ⟨hty1, htar⟩ := hta
        have hs2 : sizeOf (v :: vs2) = 1 + sizeOf v + sizeOf vs2 := by simp
        have hsv : sizeOf v < n := by omega
        have hsvs : sizeOf vs2 < n := by omega
        obtain ⟨it, hit⟩ := singleItem_items (sizeOf t) t v le_rfl hsi hty1
        have hone : deTy t [normRec it] = .ok (v, []) := by
          have h := (ih _ hsv).1 t v [] le_rfl hty1 hok
          rw [hit] at h
          simpa [normList_cons, normList_nil] using h
        simp only [itemsSeq]
        rw [normList_append, hit]
        simp only [normList_cons, normList_nil, List.cons_append, List.nil_append]
        simp only [deSeqElems, bind, Except.bind]
        rw [hone]
        rw [(ih _ hsvs).2.2.1 t vs2 le_rfl htar hok hsi]
    · intro sh pv rest hsz hts hsok
      cases sh <;> cases pv
      case unitV.unitP => simp [itemsShape, normList_nil, deShape]
      case newtypeV.newtypeP t2 v2 =>
        simp only [hasTyShape] at hts
        obtain ⟨hok1, hbl⟩ : tyOk t2 = true ∧ bytesLike t2 = true := by
          simpa [shapeOk] using hsok
        have hs2 : sizeOf (VariantVal.newtypeP v2) = 1 + sizeOf v2 := by simp
        have hlt : sizeOf v2 < n := by omega
        obtain ⟨bs, hbs⟩ := bytesLike_bytes (sizeOf t2) t2 v2 le_rfl hbl hts
        have hone : deTy t2 [RecursiveBytes.Bytes bs] = .ok (v2, []) := by
          have h := (ih _ hlt).1 t2 v2 [] le_rfl hts hok1
          rw [hbs] at h
          simpa using h
        simp only [itemsShape]
        rw [hbs]
        simp only [List.cons_append, List.nil_append, deShape, bind, Except.bind]
        simp only [parse_bytes, need_bytes]
        rw [hone]
      case tupleV.tupleP ts vs =>
        simp only [hasTyShape] at hts
        have hok2 : tyOkFields ts = true := by simpa [shapeOk] using hsok
        have hs2 : sizeOf (VariantVal.tupleP vs) = 1 + sizeOf vs := by simp
        have hlt : sizeOf vs < n := by omega
        simp only [itemsShape, normList_cons, normList_nil, normRec_nested, List.cons_append,
          List.nil_append, deShape, need_nested, bind, Except.bind]
        rw [(ih _ hlt).2.1 ts vs le_rfl hts hok2]
      case structV.structP ts vs => simp [shapeOk] at hsok
      all_goals (simp [hasTyShape] at hts; done)

/-- On a well-typed value of a supported shape the serializer succeeds and
produces exactly the packed encoding of the item description. -/
theorem to_bytes_eq (t : Ty) (v : Val) (h1 : hasTy v t = true) (h2 : tyOk t = true) :
    to_bytes t v = .ok (encList (itemsOf t v)) := by
  unfold to_bytes
  rw [(ser_appends_all (sizeOf v)).1 t v SerState.empty le_rfl h1 h2]
  show pack_rlp ((SerState.mk [] []).pushAll (itemsOf t v)).output = _
  rw [pushAll_stack_nil]
  simp only [List.nil_append]
  exact pack_rlp_eq _

/-- C2 (amended): for every value of a supported shape — fixed-width
integers, bool, char up to U+00FF, UTF-8 strings, byte strings, unit,
newtype structs, sequences and structs whose fields serialize to a single
value each, and enums of unit/newtype/tuple variants — whose serialized
items fit `usize` bounds, `from_bytes (to_bytes v)` returns the value.
Fixed-size tuples and enum struct variants are excluded: their serialized
layout is flat while the deserializer demands a list. -/
theorem c2_type_roundtrip (t : Ty) (v : Val)
    (h1 : hasTy v t = true) (h2 : tyOk t = true)
    (h3 : treeOkList (itemsOf t v) = true)
    (h4 : (encList (itemsOf t v)).length ≤ usizeMax) :
    (to_bytes t v).bind (from_bytes t) = .ok v := by
  rw [to_bytes_eq t v h1 h2]
  show from_bytes t (encList (itemsOf t v)) = .ok v
  unfold from_bytes
  rw [unpack_encList _ h3 h4]
  simp only [bind, Except.bind]
  have hde := (de_items_all (sizeOf v)).1 t v [] le_rfl h1 h2
  rw [List.append_nil] at hde
  rw [hde]

/-- C2 witness: a concrete struct of a `u8`, a `bool` and a string
round-trips through the wire format. -/
theorem c2_type_roundtrip_witness :
    (to_bytes (.structT [.uintT 1, .boolT, .strT])
        (.vStruct [.vNat 5, .vBool true, .vStr [104, 105]])).bind
      (from_bytes (.structT [.uintT 1, .boolT, .strT])) =
      .ok (.vStruct [.vNat 5, .vBool true, .vStr [104, 105]]) :=
  c2_type_roundtrip _ _ (by decide) (by decide) (by decide) (by decide)

/-- C2 counterexample: the claim's supported list includes fixed-size
tuples, but `serialize_tuple` is transparent (it opens no list:
"tuples are not treated as list with known size") while
`deserialize_tuple` goes through `deserialize_seq` and demands a list, so
the well-typed `(u8, u8)` value `(1, 2)` serializes to two top-level byte
strings `[0x01, 0x02]` and decoding fails with `ExpectedList`. -/
theorem c2_counterexample :
    hasTy (.vTuple [.vNat 1, .vNat 2]) (.tupleT [.uintT 1, .uintT 1]) = true ∧
    to_bytes (.tupleT [.uintT 1, .uintT 1]) (.vTuple [.vNat 1, .vNat 2]) = .ok [1, 2] ∧
    from_bytes (.tupleT [.uintT 1, .uintT 1]) [1, 2] = .error .ExpectedList := by
  refine ⟨by decide, by decide, ?_⟩
  have hu : unpack_rlp [1, 2] = .ok [.Bytes [1], .Bytes [2]] := by decide
  unfold from_bytes
  rw [hu]
  simp [deTy, need_nested, bind, Except.bind]

/-! ### The transaction envelope (`src/types/src/transaction.rs`)

The four transaction structs are values of the serde universe above: the
`vec_type!` primitives (`Address`, `U256`, `Nonce`) and `serde_bytes` fields
are newtype structs over byte vectors, which the bridge serializes and
deserializes exactly like plain byte strings (`bytesT`); `u64` fields are
`uintT 8`; `Vec<_>` fields are sequences. -/

/-- `TransactionLegacy`: nonce, gas_price, gas_limit, to, value, data,
v, r, s. -/
def legacyFieldTys : List Ty :=
  [.uintT 8, .bytesT, .uintT 8, .bytesT, .bytesT, .bytesT, .bytesT, .bytesT, .bytesT]

def legacyTy : Ty := .structT legacyFieldTys

/-- `AccessList` (one item): address, storage_keys. -/
def accessItemTy : Ty := .structT [.bytesT, .seqT .bytesT]

/-- `TransactionAccessList`: chain_id, nonce, gas_price, gas_limit, to,
value, data, access_list, y_parity, r, s. -/
def accessListFieldTys : List Ty :=
  [.bytesT, .uintT 8, .bytesT, .uintT 8, .bytesT, .bytesT, .bytesT,
    .seqT accessItemTy, .bytesT, .bytesT, .bytesT]

def accessListTy : Ty := .structT accessListFieldTys

/-- `TransactionDynamicFee`: chain_id, nonce, max_priority_fee_per_gas,
max_fee_per_gas, gas_limit, destination, amount, data, access_list,
y_parity, r, s. -/
def dynamicFeeFieldTys : List Ty :=
  [.bytesT, .uintT 8, .bytesT, .bytesT, .uintT 8, .bytesT, .bytesT, .bytesT,
    .seqT accessItemTy, .bytesT, .bytesT, .bytesT]

def dynamicFeeTy : Ty := .structT dynamicFeeFieldTys

/-- `TransactionBlob`: chain_id, nonce, max_priority_fee_per_gas,
max_fee_per_gas, gas_limit, to, value, data, access_list,
max_fee_per_blob_gas, blob_hashes, y_parity, r, s. -/
def blobFieldTys : List Ty :=
  [.bytesT, .uintT 8, .bytesT, .bytesT, .uintT 8, .bytesT, .bytesT, .bytesT,
    .seqT accessItemTy, .bytesT, .seqT .bytesT, .bytesT, .bytesT, .bytesT]

def blobTy : Ty := .structT blobFieldTys

/-- `TransactionEnvelope`, with each variant's struct carried as a universe
value. -/
inductive TransactionEnvelope where
  | Legacy (tx : Val)
  | AccessList (tx : Val)
  | DynamicFee (tx : Val)
  | Blob (tx : Val)

/-- `TransactionEnvelope::tx_type`. -/
def TransactionEnvelope.tx_type : TransactionEnvelope → Nat
  | .Legacy _ => 0
  | .AccessList _ => 1
  | .DynamicFee _ => 2
  | .Blob _ => 3

/-- The struct shape of each variant. -/
def TransactionEnvelope.structTy : TransactionEnvelope → Ty
  | .Legacy _ => legacyTy
  | .AccessList _ => accessListTy
  | .DynamicFee _ => dynamicFeeTy
  | .Blob _ => blobTy

/-- The carried struct value of each variant. -/
def TransactionEnvelope.payload : TransactionEnvelope → Val
  | .Legacy v => v
  | .AccessList v => v
  | .DynamicFee v => v
  | .Blob v => v

/-- `TransactionEnvelope::bytes`: `rlp_rs::to_bytes` of the inner struct. -/
def TransactionEnvelope.bytes (tx : TransactionEnvelope) : Except RlpError (List Nat) :=
  to_bytes tx.structTy tx.payload

/-- `impl Serialize for TransactionEnvelope` driven through
`rlp_rs::to_bytes`: `serialize_tuple(1)` is transparent (`SerializeTuple`'s
`end` emits nothing), a legacy transaction serializes its struct directly,
and every other variant serializes the single byte string
`tx_type || self.bytes()?`. -/
def TransactionEnvelope.to_bytes (tx : TransactionEnvelope) : Except RlpError (List Nat) :=
  match tx with
  | .Legacy v => pack_rlp (serTy legacyTy v SerState.empty).output
  | _ => do
      let tx_bytes ← tx.bytes
      pack_rlp (SerState.empty.serialize_bytes (tx.tx_type :: tx_bytes)).output

/-- `TransactionEnvelope::decode_transaction`. -/
def decode_transaction (rlp : Rlp) (tx_type : Nat) : Except RlpError TransactionEnvelope :=
  match tx_type with
  | 0 => (deTy legacyTy rlp).map (fun p => .Legacy p.1)
  | 1 => (deTy accessListTy rlp).map (fun p => .AccessList p.1)
  | 2 => (deTy dynamicFeeTy rlp).map (fun p => .DynamicFee p.1)
  | 3 => (deTy blobTy rlp).map (fun p => .Blob p.1)
  | _ => .error .InvalidBytes

/-- `TransactionEnvelope::from_raw_rlp`: also returns what is left of the
document after the pop (the Rust code mutates it in place).  The front value
decides the path: a byte string holds the type tag in its first byte
(`> 3` rejected, `rlp.get(1)` — one past the popped front — rejected) and
its remainder is re-unpacked; any other value is fed as-is to the legacy
decoder. -/
def TransactionEnvelope.from_raw_rlp : Rlp → Except RlpError (TransactionEnvelope × Rlp)
  | [] => .error .InvalidBytes
  | .Bytes bytes :: rest =>
      match bytes with
      | [] => .error .MissingBytes
      | tx_type :: tail =>
          if tx_type > 3 then .error .InvalidBytes
          else if 2 ≤ rest.length then .error .InvalidLength
          else do
            let inner ← unpack_rlp tail
            let env ← decode_transaction inner tx_type
            .ok (env, rest)
  | nest :: rest => (decode_transaction [nest] 0).map (fun env => (env, rest))

/-- `TransactionEnvelope::from_bytes`: unpack, decode, and reject leftover
top-level values with `InvalidLength`. -/
def TransactionEnvelope.from_bytes (bytes : List Nat) : Except RlpError TransactionEnvelope := do
  let rlp ← unpack_rlp bytes
  let (res, rest) ← TransactionEnvelope.from_raw_rlp rlp
  match rest with
  | [] => .ok res
  | _ :: _ => .error .InvalidLength

example : TransactionEnvelope.from_raw_rlp [.Bytes [4]] = .error .InvalidBytes := by
  simp [TransactionEnvelope.from_raw_rlp]

/-- C4 counterexample: the tag byte `0x00` is NOT rejected.  The wire bytes
are a single 11-byte string whose first byte is the tag `0x00`; the
remainder re-unpacks to a 9-field list that decodes as a legacy transaction
with every field zero/empty. -/
theorem c4_counterexample :
    TransactionEnvelope.from_bytes
        [0x8b, 0x00, 0xc9, 0x80, 0x80, 0x80, 0x80, 0x80, 0x80, 0x80, 0x80, 0x80] =
      .ok (.Legacy (.vStruct [.vNat 0, .vBytes [], .vNat 0, .vBytes [], .vBytes [],
        .vBytes [], .vBytes [], .vBytes [], .vBytes []])) := by
  have hu : unpack_rlp [0x8b, 0x00, 0xc9, 0x80, 0x80, 0x80, 0x80, 0x80, 0x80, 0x80, 0x80, 0x80] =
      .ok [.Bytes [0x00, 0xc9, 0x80, 0x80, 0x80, 0x80, 0x80, 0x80, 0x80, 0x80, 0x80]] := by
    decide
  have hu2 : unpack_rlp [0xc9, 0x80, 0x80, 0x80, 0x80, 0x80, 0x80, 0x80, 0x80, 0x80] =
      .ok [.Nested (List.replicate 9 (.Bytes []))] := by decide
  unfold TransactionEnvelope.from_bytes
  rw [hu]
  simp only [bind, Except.bind, TransactionEnvelope.from_raw_rlp]
  norm_num
  rw [hu2]
  simp only [bind, Except.bind, decode_transaction]
  rw [show deTy legacyTy [RecursiveBytes.Nested (List.replicate 9 (RecursiveBytes.Bytes []))] =
      .ok (Val.vStruct [.vNat 0, .vBytes [], .vNat 0, .vBytes [], .vBytes [],
        .vBytes [], .vBytes [], .vBytes [], .vBytes []], []) from by
    simp [legacyTy, legacyFieldTys, deTy, deFields, need_nested, parse_uint, parse_bytes,
      need_bytes, need_bytes_len, bind, Except.bind, Except.map, List.replicate]
    decide]
  simp [Except.map]

/-- C4 (amended): `TransactionEnvelope::from_raw_rlp` rejects a leading
byte string whose tag byte is greater than 3 with `InvalidBytes` (so `0x00`
is accepted, contrary to the claim), decodes a leading list as a legacy
transaction, dispatches tags `0..=3` by re-unpacking the string's remainder
(tag `0x00` selecting the legacy struct), rejects the empty byte string
with `MissingBytes` and the empty document with `InvalidBytes`. -/
theorem c4_envelope_tag (tag : Nat) (tail : List Nat) (recs rest : Rlp) :
    (3 < tag →
      TransactionEnvelope.from_raw_rlp (.Bytes (tag :: tail) :: rest) =
        .error .InvalidBytes) ∧
    (TransactionEnvelope.from_raw_rlp (.Nested recs :: rest) =
      (deTy legacyTy [RecursiveBytes.Nested recs]).map (fun p => (.Legacy p.1, rest))) ∧
    (tag ≤ 3 → rest.length ≤ 1 →
      TransactionEnvelope.from_raw_rlp (.Bytes (tag :: tail) :: rest) =
        (unpack_rlp tail).bind fun inner =>
          (decode_transaction inner tag).map fun env => (env, rest)) ∧
    (TransactionEnvelope.from_raw_rlp (.Bytes [] :: rest) = .error .MissingBytes) ∧
    (TransactionEnvelope.from_raw_rlp [] = .error .InvalidBytes) := by
  refine ⟨?_, ?_, ?_, ?_, ?_⟩
  · intro h
    simp only [TransactionEnvelope.from_raw_rlp]
    rw [if_pos h]
  · simp only [TransactionEnvelope.from_raw_rlp, decode_transaction]
    cases hde : deTy legacyTy [RecursiveBytes.Nested recs] <;> simp [Except.map]
  · intro h1 h2
    simp only [TransactionEnvelope.from_raw_rlp]
    rw [if_neg (by omega), if_neg (by omega)]
    simp only [bind, Except.bind]
    cases hun : unpack_rlp tail <;> simp [Except.map]
  · simp [TransactionEnvelope.from_raw_rlp]
  · simp [TransactionEnvelope.from_raw_rlp]

/-- C4 witness: a tag byte of `0x04` is rejected with `InvalidBytes`, and
the tag `0x02` path re-frames the remainder (here: failing on the empty
remainder whose unpacked document has no values). -/
theorem c4_envelope_tag_witness :
    TransactionEnvelope.from_raw_rlp [.Bytes [0x04]] = .error .InvalidBytes ∧
    TransactionEnvelope.from_raw_rlp [.Bytes [0x02]] =
      (unpack_rlp []).bind fun inner =>
        (decode_transaction inner 2).map fun env => (env, ([] : Rlp)) :=
  ⟨(c4_envelope_tag 4 [] [] []).1 (by omega),
    (c4_envelope_tag 2 [] [] []).2.2.1 (by omega) (by simp)⟩

/-- C5: envelope serialization follows EIP-2718.  A legacy transaction is
emitted directly as the bare RLP list of its fields; every non-legacy
variant is emitted as a single RLP byte string whose content is the tag
byte (`0x01`/`0x02`/`0x03` for AccessList/DynamicFee/Blob) followed by the
RLP encoding of the inner struct. -/
theorem c5_envelope_serialization (tx : TransactionEnvelope)
    (h1 : hasTy tx.payload tx.structTy = true)
    (h3 : treeOkList (itemsOf tx.structTy tx.payload) = true)
    (h4 : (encList (itemsOf tx.structTy tx.payload)).length ≤ usizeMax) :
    (tx.tx_type = 0 →
      ∃ fields, itemsOf tx.structTy tx.payload = [.Nested fields] ∧
        tx.to_bytes = .ok (listHdrOf (encList fields).length ++ encList fields)) ∧
    (1 ≤ tx.tx_type →
      tx.to_bytes =
        .ok (encBytesOf (tx.tx_type :: encList (itemsOf tx.structTy tx.payload)))) := by
  have h2 : tyOk tx.structTy = true := by
    cases tx <;> simp only [TransactionEnvelope.structTy] <;> decide
  have hb : tx.bytes = .ok (encList (itemsOf tx.structTy tx.payload)) :=
    to_bytes_eq _ _ h1 h2
  constructor
  · intro h0
    cases tx with
    | Legacy v =>
      -- `hasTy` forces the payload to be a struct value
      cases v <;> simp [TransactionEnvelope.payload, TransactionEnvelope.structTy, legacyTy,
        hasTy] at h1 h3 h4 ⊢
      case vStruct vs =>
        refine ⟨itemsFields legacyFieldTys vs, by simp [itemsOf], ?_⟩
        show pack_rlp (serTy legacyTy (.vStruct vs) SerState.empty).output = _
        rw [(ser_appends_all (sizeOf (Val.vStruct vs))).1 legacyTy (.vStruct vs)
          SerState.empty le_rfl (by simpa [hasTy, legacyTy] using h1) (by decide)]
        show pack_rlp ((SerState.mk [] []).pushAll _).output = _
        rw [pushAll_stack_nil]
        simp only [List.nil_append]
        rw [pack_rlp_eq]
        have : encList (itemsOf legacyTy (.vStruct vs)) =
            encOne (.Nested (itemsFields legacyFieldTys vs)) := by
          simp [itemsOf, legacyTy, encList]
        rw [this, encOne_nested]
    | AccessList v => simp [TransactionEnvelope.tx_type] at h0
    | DynamicFee v => simp [TransactionEnvelope.tx_type] at h0
    | Blob v => simp [TransactionEnvelope.tx_type] at h0
  · intro hpos
    cases tx with
    | Legacy v => simp [TransactionEnvelope.tx_type] at hpos
    | AccessList v =>
      show (do
        let tx_bytes ← TransactionEnvelope.bytes (.AccessList v)
        pack_rlp (SerState.empty.serialize_bytes
          (TransactionEnvelope.tx_type (.AccessList v) :: tx_bytes)).output) = _
      rw [hb]
      simp only [bind, Except.bind]
      simp only [TransactionEnvelope.tx_type, TransactionEnvelope.structTy,
        TransactionEnvelope.payload]
      rw [show ∀ bs : List Nat, SerState.empty.serialize_bytes (1 :: bs) =
          SerState.mk [.Bytes (1 :: bs)] [] from fun bs => rfl]
      show pack_rlp [RecursiveBytes.Bytes (1 :: _)] = _
      rw [pack_rlp_eq]
      simp [encList, encOne_bytes]
    | DynamicFee v =>
      show (do
        let tx_bytes ← TransactionEnvelope.bytes (.DynamicFee v)
        pack_rlp (SerState.empty.serialize_bytes
          (TransactionEnvelope.tx_type (.DynamicFee v) :: tx_bytes)).output) = _
      rw [hb]
      simp only [bind, Except.bind]
      simp only [TransactionEnvelope.tx_type, TransactionEnvelope.structTy,
        TransactionEnvelope.payload]
      rw [show ∀ bs : List Nat, SerState.empty.serialize_bytes (2 :: bs) =
          SerState.mk [.Bytes (2 :: bs)] [] from fun bs => rfl]
      show pack_rlp [RecursiveBytes.Bytes (2 :: _)] = _
      rw [pack_rlp_eq]
      simp [encList, encOne_bytes]
    | Blob v =>
      show (do
        let tx_bytes ← TransactionEnvelope.bytes (.Blob v)
        pack_rlp (SerState.empty.serialize_bytes
          (TransactionEnvelope.tx_type (.Blob v) :: tx_bytes)).output) = _
      rw [hb]
      simp only [bind, Except.bind]
      simp only [TransactionEnvelope.tx_type, TransactionEnvelope.structTy,
        TransactionEnvelope.payload]
      rw [show ∀ bs : List Nat, SerState.empty.serialize_bytes (3 :: bs) =
          SerState.mk [.Bytes (3 :: bs)] [] from fun bs => rfl]
      show pack_rlp [RecursiveBytes.Bytes (3 :: _)] = _
      rw [pack_rlp_eq]
      simp [encList, encOne_bytes]

/-- An all-empty access-list transaction struct value. -/
def accessListEmptyVal : Val :=
  .vStruct [.vBytes [], .vNat 0, .vBytes [], .vNat 0, .vBytes [], .vBytes [], .vBytes [],
    .vSeq [], .vBytes [], .vBytes [], .vBytes []]

/-- C5 witness: the all-empty access-list transaction serializes to the
byte string `0x01 || rlp(struct)`. -/
theorem c5_envelope_serialization_witness :
    (TransactionEnvelope.AccessList accessListEmptyVal).to_bytes =
      .ok (encBytesOf (1 :: encList (itemsOf accessListTy accessListEmptyVal))) :=
  (c5_envelope_serialization (.AccessList accessListEmptyVal)
    (by decide) (by decide) (by decide)).2 (by decide)

/-! ### The block header (`src/types/src/block.rs`) -/

/-- Modelled from the spec: `B32` is imported by `block.rs` for its 32-byte
hash fields but its definition is missing from `src/`; spec §3 lists the
primitive newtypes as serde-bytes newtypes over variable-length byte strings
with a maximum size (`Word` S=32 for hashes), so like the `vec_type!`
primitives it (de)serializes as a plain byte string. -/
def b32Ty : Ty := .bytesT

/-- `CommonHeader`: parent_hash, uncle_hash, coinbase, state_root, tx_root,
receipt_hash, bloom, difficulty, number, gas_limit, gas_used, time, extra,
mix_digest, nonce. -/
def commonHeaderFieldTys : List Ty :=
  [b32Ty, b32Ty, .bytesT, b32Ty, b32Ty, b32Ty, .bytesT, .bytesT, .bytesT,
    .uintT 8, .uintT 8, .uintT 8, .bytesT, b32Ty, .bytesT]

def commonHeaderTy : Ty := .structT commonHeaderFieldTys

/-- The five fork variants of `Header`: the common 15 fields (carried as a
universe value) plus the appended per-fork tail. -/
inductive Header where
  | Legacy (common : Val)
  | London (common : Val) (base_fee : List Nat)
  | Shanghai (common : Val) (base_fee : List Nat) (withdrawal_root : List Nat)
  | Cancun (common : Val) (base_fee : List Nat) (withdrawal_root : List Nat)
      (blob_gas_used : Nat) (excess_blob_gas : Nat) (parent_beacon_block_root : List Nat)
  | Unknown (common : Val) (rest : List (List Nat))

/-- `Rlp::flatten_nested`: succeeds only on a document holding exactly one
list, returning its elements. -/
def flatten_nested : Rlp → Option Rlp
  | [RecursiveBytes.Nested recs] => some recs
  | _ => none

/-- `Header::common_from_raw_rlp`: pop the 15 common values (`MissingBytes`
when fewer are present), rewrap them as a one-list document and run the
derived `CommonHeader` deserializer; returns the decoded struct and what is
left of the flattened document. -/
def common_from_raw_rlp (rlp : Rlp) : Except RlpError (Val × Rlp) :=
  if rlp.length < 15 then .error .MissingBytes
  else (deTy commonHeaderTy [.Nested (rlp.take 15)]).map (fun p => (p.1, rlp.drop 15))

/-- `Header::from_raw_rlp` (the strict path): flatten the outer list, count
fields, decode the common 15, then dispatch on the count — 15 Legacy,
16 London, 17 Shanghai, 20 Cancun (the per-fork tail fields popped one by
one, `U256`/`B32` tails with their errors collapsed to `MissingBytes`),
every other count rejected with `TrailingBytes`. -/
def Header.from_raw_rlp (rlp : Rlp) : Except RlpError Header := do
  let flat ← match flatten_nested rlp with
    | some f => Except.ok f
    | none => Except.error RlpError.MissingBytes
  let fields := flat.length
  if fields < 15 then .error .InvalidBytes
  else do
    let (common, rest) ← common_from_raw_rlp flat
    if fields = 15 then
      if rest.isEmpty then .ok (.Legacy common) else .error .TrailingBytes
    else if fields = 16 ∨ fields = 17 ∨ fields = 20 then
      match rest with
      | [] => .error .MissingBytes
      | rec1 :: rest1 => do
        let base_fee ← match parse_bytes [rec1] with
          | .ok p => Except.ok p.1
          | .error _ => Except.error RlpError.MissingBytes
        if fields = 16 then
          if rest1.isEmpty then .ok (.London common base_fee) else .error .TrailingBytes
        else
          match rest1 with
          | [] => .error .MissingBytes
          | rec2 :: rest2 => do
            let withdrawal_root ← match parse_bytes [rec2] with
              | .ok p => Except.ok p.1
              | .error _ => Except.error RlpError.MissingBytes
            if fields = 17 then
              if rest2.isEmpty then .ok (.Shanghai common base_fee withdrawal_root)
              else .error .TrailingBytes
            else
              match rest2 with
              | [] => .error .MissingBytes
              | rec3 :: rest3 => do
                let (blob_gas_used, _) ← parse_uint 8 [rec3]
                match rest3 with
                | [] => .error .MissingBytes
                | rec4 :: rest4 => do
                  let (excess_blob_gas, _) ← parse_uint 8 [rec4]
                  match rest4 with
                  | [] => .error .MissingBytes
                  | rec5 :: rest5 => do
                    let (pbbr, _) ← parse_bytes [rec5]
                    if rest5.isEmpty then
                      .ok (.Cancun common base_fee withdrawal_root blob_gas_used
                        excess_blob_gas pbbr)
                    else .error .TrailingBytes
    else .error .TrailingBytes

/-- The drain loop of `unknown_from_raw_rlp`: every remaining value must be
a byte string. -/
def collectBytes : Rlp → Except RlpError (List (List Nat))
  | [] => .ok []
  | .Bytes bs :: rest => (collectBytes rest).map (fun l => bs :: l)
  | _ :: _ => .error .ExpectedBytes

/-- `Header::unknown_from_raw_rlp` (the permissive path): same flatten,
count and common decode, then keep all trailing items verbatim as opaque
byte strings. -/
def Header.unknown_from_raw_rlp (rlp : Rlp) : Except RlpError Header := do
  let flat ← match flatten_nested rlp with
    | some f => Except.ok f
    | none => Except.error RlpError.MissingBytes
  if flat.length < 15 then .error .InvalidBytes
  else do
    let (common, rest) ← common_from_raw_rlp flat
    let bytesRest ← collectBytes rest
    .ok (.Unknown common bytesRest)

/-- C6: strict header decoding maps a flattened list of exactly 15 fields
to Legacy, 16 to London, 17 to Shanghai and 20 to Cancun; fewer than 15
fields is malformed (`InvalidBytes`, on both paths), and every other count
is rejected (`TrailingBytes`); the permissive path accepts any count ≥ 15,
keeping the 15 common fields and the trailing items verbatim as opaque byte
strings. -/
theorem c6_header_count_dispatch (flat : Rlp) :
    (flat.length < 15 →
      Header.from_raw_rlp [.Nested flat] = .error .InvalidBytes ∧
      Header.unknown_from_raw_rlp [.Nested flat] = .error .InvalidBytes) ∧
    (∀ common, flat.length = 15 → common_from_raw_rlp flat = .ok (common, []) →
      Header.from_raw_rlp [.Nested flat] = .ok (.Legacy common)) ∧
    (∀ common bf, flat.length = 16 →
      common_from_raw_rlp flat = .ok (common, [.Bytes bf]) →
      Header.from_raw_rlp [.Nested flat] = .ok (.London common bf)) ∧
    (∀ common bf wr, flat.length = 17 →
      common_from_raw_rlp flat = .ok (common, [.Bytes bf, .Bytes wr]) →
      Header.from_raw_rlp [.Nested flat] = .ok (.Shanghai common bf wr)) ∧
    (∀ common bf wr b3 b4 pb bgu ebg, flat.length = 20 →
      common_from_raw_rlp flat =
        .ok (common, [.Bytes bf, .Bytes wr, .Bytes b3, .Bytes b4, .Bytes pb]) →
      parse_uint 8 [.Bytes b3] = .ok (bgu, []) →
      parse_uint 8 [.Bytes b4] = .ok (ebg, []) →
      Header.from_raw_rlp [.Nested flat] =
        .ok (.Cancun common bf wr bgu ebg pb)) ∧
    (∀ common rest, 15 ≤ flat.length →
      flat.length ≠ 15 → flat.length ≠ 16 → flat.length ≠ 17 → flat.length ≠ 20 →
      common_from_raw_rlp flat = .ok (common, rest) →
      Header.from_raw_rlp [.Nested flat] = .error .TrailingBytes) ∧
    (∀ common rest bs, 15 ≤ flat.length →
      common_from_raw_rlp flat = .ok (common, rest) →
      collectBytes rest = .ok bs →
      Header.unknown_from_raw_rlp [.Nested flat] = .ok (.Unknown common bs)) := by
  refine ⟨?_, ?_, ?_, ?_, ?_, ?_, ?_⟩
  · intro hlt
    constructor
    · unfold Header.from_raw_rlp
      simp only [flatten_nested, bind, Except.bind]
      rw [if_pos hlt]
    · unfold Header.unknown_from_raw_rlp
      simp only [flatten_nested, bind, Except.bind]
      rw [if_pos hlt]
  · intro common h15 hcom
    unfold Header.from_raw_rlp
    simp only [flatten_nested, bind, Except.bind]
    rw [if_neg (by omega)]
    simp only [hcom]
    rw [if_pos h15]
    simp
  · intro common bf h16 hcom
    unfold Header.from_raw_rlp
    simp only [flatten_nested, bind, Except.bind]
    rw [if_neg (by omega)]
    simp only [hcom]
    rw [if_neg (by omega), if_pos (by omega)]
    simp only [parse_bytes, need_bytes, bind, Except.bind]
    rw [if_pos h16]
    simp
  · intro common bf wr h17 hcom
    unfold Header.from_raw_rlp
    simp only [flatten_nested, bind, Except.bind]
    rw [if_neg (by omega)]
    simp only [hcom]
    rw [if_neg (by omega), if_pos (by omega)]
    simp only [parse_bytes, need_bytes, bind, Except.bind]
    rw [if_neg (by omega), if_pos h17]
    simp
  · intro common bf wr b3 b4 pb bgu ebg h20 hcom hu1 hu2
    unfold Header.from_raw_rlp
    simp only [flatten_nested, bind, Except.bind]
    rw [if_neg (by omega)]
    simp only [hcom]
    rw [if_neg (by omega), if_pos (by omega)]
    simp only [parse_bytes, need_bytes, bind, Except.bind]
    rw [if_neg (by omega), if_neg (by omega)]
    simp only [hu1, hu2]
    simp
  · intro common rest h15 hne15 hne16 hne17 hne20 hcom
    unfold Header.from_raw_rlp
    simp only [flatten_nested, bind, Except.bind]
    rw [if_neg (by omega)]
    simp only [hcom]
    rw [if_neg (by omega), if_neg (by simp only [not_or]; omega)]
  · intro common rest bs h15 hcom hcoll
    unfold Header.unknown_from_raw_rlp
    simp only [flatten_nested, bind, Except.bind]
    rw [if_neg (by omega)]
    simp only [hcom, hcoll]

/-- The all-empty decoded common header (every byte-string field empty,
every integer field zero). -/
def commonEmptyVal : Val :=
  .vStruct [.vBytes [], .vBytes [], .vBytes [], .vBytes [], .vBytes [], .vBytes [],
    .vBytes [], .vBytes [], .vBytes [], .vNat 0, .vNat 0, .vNat 0, .vBytes [],
    .vBytes [], .vBytes []]

/-- C6 witness: a flattened header of 16 fields (15 empty strings plus a
base-fee byte) decodes strictly to the London variant. -/
theorem c6_header_count_dispatch_witness :
    Header.from_raw_rlp
        [.Nested (List.replicate 15 (RecursiveBytes.Bytes []) ++ [RecursiveBytes.Bytes [5]])] =
      .ok (.London commonEmptyVal [5]) :=
  (c6_header_count_dispatch _).2.2.1 commonEmptyVal [5] (by decide)
    (by
      have hde : deTy commonHeaderTy [.Nested (List.replicate 15 (RecursiveBytes.Bytes []))] =
          .ok (commonEmptyVal, []) := by
        simp [commonHeaderTy, commonHeaderFieldTys, b32Ty, commonEmptyVal, deTy, deFields,
          need_nested, parse_uint, parse_bytes, need_bytes, need_bytes_len, bind, Except.bind,
          Except.map, List.replicate]
        decide
      unfold common_from_raw_rlp
      rw [if_neg (by decide)]
      simp only [show (List.replicate 15 (RecursiveBytes.Bytes []) ++
          [RecursiveBytes.Bytes [5]]).take 15 = List.replicate 15 (RecursiveBytes.Bytes [])
          from by decide,
        show (List.replicate 15 (RecursiveBytes.Bytes []) ++
          [RecursiveBytes.Bytes [5]]).drop 15 = [RecursiveBytes.Bytes [5]] from by decide,
        hde, Except.map])
